import Mathlib

/-!
Verification of the Minesweeper board/controller core (files `sprites.py`
and `main.py`).  The board is a column-major grid of tiles; the embedding
models the grid as a total function `(ℤ × ℤ) → Tile` (the source only ever
reads in-bounds cells, which the safety lemmas below establish), the
mutable `self.dug` list as an explicit `List (ℤ × ℤ)` threaded through the
recursive `dig`, and the random stream of `random.randint` picks used by
`place_mines` as an explicit list of candidate coordinates.  Board
dimensions and the mine count are parameters (they come from the ambient
`settings` module in the source).  Pixel positions and surface blitting are
presentation-only and carry no logic, so they are not modelled; the
`image` attribute of a tile is modelled because it carries the clue digit.
-/

namespace Minesweeper

/-- Tile kind, source `Tile.type`: `"."` (unknown/empty), `"X"` (mine),
`"C"` (clue). -/
inductive TileType
  | dot
  | mine
  | clue
deriving DecidableEq, Repr

/-- The images a tile can show, source module-level assets: `tile_empty`,
`tile_mine`, `tile_exploded`, `tile_not_mine`, and `tile_numbers[n-1]`
(the digit-`n` picture, modelled as `number n`). -/
inductive TileImage
  | empty
  | mineImg
  | exploded
  | notMine
  | number (n : ℕ)
deriving DecidableEq, Repr

/-- One grid cell, source class `Tile` (`sprites.py` lines 6-62).  The
pixel position `self.x, self.y` is presentation-only and not modelled. -/
structure Tile where
  type : TileType
  image : TileImage
  revealed : Bool
  flagged : Bool
deriving DecidableEq, Repr

/-- The grid of tiles, source `Board.board_list` indexed `[col][row]`. -/
def Grid : Type := (ℤ × ℤ) → Tile

/-- Board state: the tile grid together with the mutable list of already
dug coordinates, source `Board.board_list` and `Board.dug`. -/
structure Board where
  board_list : Grid
  dug : List (ℤ × ℤ)

/-- The inclusive integer range `lo..hi` as a list (Python
`range(lo, hi + 1)`). -/
def rangeIncl (lo hi : ℤ) : List ℤ :=
  (List.range (hi + 1 - lo).toNat).map (fun (i : ℕ) => lo + (i : ℤ))

/-- All grid coordinates in source iteration order: `x` (column) outer,
`y` (row) inner, matching `for x in range(COLS): for y in range(ROWS)`. -/
def gridL (COLS ROWS : ℤ) : List (ℤ × ℤ) :=
  (rangeIncl 0 (COLS - 1)).product (rangeIncl 0 (ROWS - 1))

/-- Total number of tiles of the board. -/
def numTiles (COLS ROWS : ℤ) : ℕ := (gridL COLS ROWS).length

/-- Source `Board.is_inside` (`sprites.py` lines 126-138):
`0 <= x < COLS and 0 <= y < ROWS`. -/
def is_inside (COLS ROWS x y : ℤ) : Bool :=
  decide (0 ≤ x ∧ x < COLS ∧ 0 ≤ y ∧ y < ROWS)

/-- Pointwise update of the grid at one coordinate (mutation of one
`Tile` object in the source). -/
def updateGrid (b : Grid) (p : ℤ × ℤ) (t : Tile) : Grid :=
  fun q => if q = p then t else b q

/-- The offsets `-1, 0, 1` of Python `range(-1, 2)`. -/
def offsetsL : List ℤ := [-1, 0, 1]

/-- Source `Board.check_neighbours` (`sprites.py` lines 140-159): count of
mine tiles in the 3x3 box around `(x, y)`, guarded by `is_inside` so that
out-of-grid cells contribute nothing. -/
def check_neighbours (COLS ROWS : ℤ) (b : Grid) (x y : ℤ) : ℕ :=
  ((offsetsL.product offsetsL).countP
    (fun o =>
      is_inside COLS ROWS (x + o.1) (y + o.2) &&
        decide ((b (x + o.1, y + o.2)).type = TileType.mine)))

/-- The initial tile of a fresh board: `Tile(col, row, tile_empty, ".")`
(`sprites.py` line 86). -/
def initTile : Tile :=
  { type := TileType.dot, image := TileImage.empty, revealed := false, flagged := false }

/-- The fresh grid created by `Board.__init__` before mine placement. -/
def initGrid : Grid := fun _ => initTile

/-- The inner `while True` loop of `Board.place_mines` (`sprites.py` lines
100-107): scan the stream of random picks until one names a still-`"."`
tile, place a mine there ( `image = tile_mine`, `type = "X"` ) and return
the rest of the stream; `none` if the stream runs out. -/
def place_mine_pick (b : Grid) : List (ℤ × ℤ) → Option (Grid × List (ℤ × ℤ))
  | [] => none
  | p :: ps =>
    if (b p).type = TileType.dot then
      some (updateGrid b p { b p with image := TileImage.mineImg, type := TileType.mine }, ps)
    else place_mine_pick b ps

/-- Source `Board.place_mines` (`sprites.py` lines 91-107): place `n`
mines, consuming the stream of random `(x, y)` picks. -/
def place_mines : Grid → List (ℤ × ℤ) → ℕ → Option Grid
  | b, _, 0 => some b
  | b, picks, n + 1 =>
    match place_mine_pick b picks with
    | none => none
    | some (b2, rest) => place_mines b2 rest n

/-- The body of the `place_clues` double loop at one coordinate
(`sprites.py` lines 119-123): a non-mine tile with a positive neighbour
count gets `image = tile_numbers[total_mines-1]` and `type = "C"`. -/
def clueStep (COLS ROWS : ℤ) (b : Grid) (p : ℤ × ℤ) : Grid :=
  if (b p).type ≠ TileType.mine then
    if 0 < check_neighbours COLS ROWS b p.1 p.2 then
      updateGrid b p
        { b p with image := TileImage.number (check_neighbours COLS ROWS b p.1 p.2),
                   type := TileType.clue }
    else b
  else b

/-- Source `Board.place_clues` (`sprites.py` lines 109-123): the double
loop over all coordinates, column-outer. -/
def place_clues (COLS ROWS : ℤ) (b : Grid) : Grid :=
  (gridL COLS ROWS).foldl (clueStep COLS ROWS) b

/-- Source `Board.__init__` (`sprites.py` lines 76-89): fresh grid, mines,
clues, and `self.dug = []`.  `none` when the pick stream is too short. -/
def mkBoard (COLS ROWS : ℤ) (picks : List (ℤ × ℤ)) (n : ℕ) : Option Board :=
  (place_mines initGrid picks n).map
    (fun b => { board_list := place_clues COLS ROWS b, dug := [] })

/-- `self.dug.append((x, y))` (`sprites.py` line 188). -/
def pushDug (s : Board) (p : ℤ × ℤ) : Board := { s with dug := s.dug ++ [p] }

/-- Set the `revealed` flag of one tile (`sprites.py` lines 194, 197). -/
def revealAt (b : Grid) (p : ℤ × ℤ) : Grid :=
  updateGrid b p { b p with revealed := true }

/-- Reveal a mine tile and swap its image to `tile_exploded`
(`sprites.py` lines 190-191). -/
def explodeAt (b : Grid) (p : ℤ × ℤ) : Grid :=
  updateGrid b p { b p with revealed := true, image := TileImage.exploded }

/-- The neighbour coordinates enumerated by the flood-fill loops of
`Board.dig` (`sprites.py` lines 201-202), in source order (`nx` outer):
`range(max(0, x-1), min(COLS-1, x+1) + 1)` crossed with
`range(max(0, y-1), min(ROWS-1, y+1) + 1)`. -/
def nbrs (COLS ROWS : ℤ) (p : ℤ × ℤ) : List (ℤ × ℤ) :=
  (rangeIncl (max 0 (p.1 - 1)) (min (COLS - 1) (p.1 + 1))).product
    (rangeIncl (max 0 (p.2 - 1)) (min (ROWS - 1) (p.2 + 1)))

/-- Source `Board.dig` (`sprites.py` lines 175-205), fuel-indexed to make
the unbounded Python recursion structural: append `(x, y)` to `dug`; a
mine is revealed-and-exploded returning `False`; a clue is revealed
returning `True`; an empty tile is revealed and the 3x3 neighbours not yet
in `dug` are dug recursively (their results discarded), returning `True`.
The fuel only bounds recursion depth; `dig` below instantiates it with a
bound proved sufficient (theorem on fuel indifference). -/
def digF (COLS ROWS : ℤ) : ℕ → Board → ℤ × ℤ → Board × Bool
  | 0, s, _ => (s, true)
  | f + 1, s, p =>
    let s1 := pushDug s p
    match (s1.board_list p).type with
    | TileType.mine => ({ s1 with board_list := explodeAt s1.board_list p }, false)
    | TileType.clue => ({ s1 with board_list := revealAt s1.board_list p }, true)
    | TileType.dot =>
      ((nbrs COLS ROWS p).foldl
        (fun t q => if q ∈ t.dug then t else (digF COLS ROWS f t q).1)
        { s1 with board_list := revealAt s1.board_list p }, true)

/-- One step of the flood-fill loop body (`sprites.py` lines 203-204):
skip coordinates already in `dug`, otherwise dig them. -/
def digStep (COLS ROWS : ℤ) (f : ℕ) (t : Board) (q : ℤ × ℤ) : Board :=
  if q ∈ t.dug then t else (digF COLS ROWS f t q).1

/-- `Board.dig` with the depth bound `numTiles + 1`, which the fuel
theorems prove sufficient for every state. -/
def dig (COLS ROWS : ℤ) (s : Board) (p : ℤ × ℤ) : Board × Bool :=
  digF COLS ROWS (numTiles COLS ROWS + 1) s p

/-- Number of grid coordinates not yet dug (the termination measure of the
flood-fill). -/
def undug (COLS ROWS : ℤ) (s : Board) : ℕ :=
  ((gridL COLS ROWS).filter (fun q => decide (q ∉ s.dug))).length

/-- Controller session state, source class `Game` (`main.py`): the current
board plus the `playing` and `win` flags. -/
structure Game where
  st : Board
  playing : Bool
  win : Bool

/-- Source `Game.check_win` (`main.py` lines 62-73): `False` as soon as
some tile has `type != "X" and not revealed`, else `True`. -/
def check_win (COLS ROWS : ℤ) (b : Grid) : Bool :=
  (gridL COLS ROWS).all
    (fun p => !(decide ((b p).type ≠ TileType.mine) && !(b p).revealed))

/-- A per-tile update step applied over the whole grid: the body of the
controller's `for row in board_list: for tile in row` loops, each of which
rewrites one tile as a function of that tile (and its coordinate). -/
def tileStep (f : (ℤ × ℤ) → Tile → Tile) (b : Grid) (p : ℤ × ℤ) : Grid :=
  updateGrid b p (f p (b p))

/-- The per-tile body of the loss-handling loop (`main.py` lines 101-121),
with `click` the coordinate of the clicked tile (the source's identity
test `tile == self.board_list[mx][my]`): a flagged mine is skipped, the
clicked mine explodes, other mines are revealed with the plain mine image,
and wrongly flagged non-mines are revealed with `tile_not_mine`. -/
def lossTile (click : ℤ × ℤ) (q : ℤ × ℤ) (t : Tile) : Tile :=
  if t.type = TileType.mine then
    if t.flagged then t
    else if q = click then
      { t with revealed := true, flagged := false, image := TileImage.exploded }
    else
      { t with revealed := true, flagged := false, image := TileImage.mineImg }
  else if t.flagged then
    { t with revealed := true, flagged := false, image := TileImage.notMine }
  else t

/-- The loss-handling sweep over all tiles (`main.py` lines 101-121). -/
def lossSweep (COLS ROWS : ℤ) (b : Grid) (click : ℤ × ℤ) : Grid :=
  (gridL COLS ROWS).foldl (tileStep (lossTile click)) b

/-- The per-tile body of the win auto-flag loop (`main.py` lines 133-136):
every still-unrevealed tile gets flagged. -/
def winTile (_q : ℤ × ℤ) (t : Tile) : Tile :=
  if !t.revealed then { t with flagged := true } else t

/-- The left-click branch of `Game.events` (`main.py` lines 95-123): a
flagged tile is not dug; otherwise dig, and when dig reports a mine run
the loss sweep and stop the round. -/
def leftClick (COLS ROWS : ℤ) (g : Game) (p : ℤ × ℤ) : Game :=
  if (g.st.board_list p).flagged then g
  else
    let r := dig COLS ROWS g.st p
    if r.2 then { g with st := r.1 }
    else
      { st := { board_list := lossSweep COLS ROWS r.1.board_list p, dug := r.1.dug },
        playing := false, win := g.win }

/-- The win check at the end of `Game.events` (`main.py` lines 130-136):
when `check_win` holds, set `win`, stop the round and flag every
unrevealed tile. -/
def winPhase (COLS ROWS : ℤ) (g : Game) : Game :=
  if check_win COLS ROWS g.st.board_list then
    { st := { g.st with board_list := (gridL COLS ROWS).foldl (tileStep winTile) g.st.board_list },
      playing := false, win := true }
  else g

/-- A full left-click event as processed by `Game.events`: the button-1
branch followed by the win check. -/
def processLeftClick (COLS ROWS : ℤ) (g : Game) (p : ℤ × ℤ) : Game :=
  winPhase COLS ROWS (leftClick COLS ROWS g p)

/-- Mine count of the grid, the quantity of source invariant
`count(kind=Mine) == AMOUNT_MINES`. -/
def countMines (COLS ROWS : ℤ) (b : Grid) : ℕ :=
  (gridL COLS ROWS).countP (fun p => decide ((b p).type = TileType.mine))

/-- The kind map of a grid; `dig` and the controller never change it, so
reachability notions below are stated over it. -/
def tyMap (b : Grid) : (ℤ × ℤ) → TileType := fun q => (b q).type

/-- One flood-fill step: from an empty tile to any cell of its 3x3
neighbourhood. -/
def estep (COLS ROWS : ℤ) (tm : (ℤ × ℤ) → TileType) (p q : ℤ × ℤ) : Prop :=
  tm p = TileType.dot ∧ q ∈ nbrs COLS ROWS p

/-- Reachability of the flood-fill: a chain of `estep`s, every
intermediate cell empty. -/
def reach (COLS ROWS : ℤ) (tm : (ℤ × ℤ) → TileType) (p q : ℤ × ℤ) : Prop :=
  Relation.ReflTransGen (estep COLS ROWS tm) p q

/-- The connected region of empty tiles containing the dig origin `p`. -/
def Region (COLS ROWS : ℤ) (b : Grid) (p q : ℤ × ℤ) : Prop :=
  (b q).type = TileType.dot ∧ reach COLS ROWS (tyMap b) p q

/-- The clue tiles bordering the empty region of `p`. -/
def Border (COLS ROWS : ℤ) (b : Grid) (p q : ℤ × ℤ) : Prop :=
  (b q).type = TileType.clue ∧
    ∃ r, Region COLS ROWS b p r ∧ q ∈ nbrs COLS ROWS r

/-- A generated board is well formed: an in-bounds empty tile has no mine
in its 3x3 box (after `place_clues`, a tile with a mine neighbour is a
clue). -/
def wfGrid (COLS ROWS : ℤ) (b : Grid) : Prop :=
  ∀ p ∈ gridL COLS ROWS, (b p).type = TileType.dot →
    ∀ q ∈ nbrs COLS ROWS p, (b q).type ≠ TileType.mine

/-- Reachable-state invariant of the dug list: dug tiles are revealed, and
a dug empty tile has its whole neighbourhood dug (the flood-fill never
stops halfway).  It holds for the fresh board (`dug = []`) and is
preserved by `dig`. -/
def DugInv (COLS ROWS : ℤ) (s : Board) : Prop :=
  (∀ q ∈ s.dug, (s.board_list q).revealed = true) ∧
    (∀ q ∈ s.dug, (s.board_list q).type = TileType.dot →
      ∀ r ∈ nbrs COLS ROWS q, r ∈ s.dug)

instance wfGrid_decidable (COLS ROWS : ℤ) (b : Grid) : Decidable (wfGrid COLS ROWS b) :=
  inferInstanceAs (Decidable (∀ p ∈ gridL COLS ROWS, (b p).type = TileType.dot →
    ∀ q ∈ nbrs COLS ROWS p, (b q).type ≠ TileType.mine))

instance dugInv_decidable (COLS ROWS : ℤ) (s : Board) : Decidable (DugInv COLS ROWS s) :=
  inferInstanceAs (Decidable ((∀ q ∈ s.dug, (s.board_list q).revealed = true) ∧
    (∀ q ∈ s.dug, (s.board_list q).type = TileType.dot →
      ∀ r ∈ nbrs COLS ROWS q, r ∈ s.dug)))

/-! ### Basic facts about ranges, the grid and the neighbour list -/

theorem mem_rangeIncl {lo hi a : ℤ} : a ∈ rangeIncl lo hi ↔ lo ≤ a ∧ a ≤ hi := by
  unfold rangeIncl
  rw [List.mem_map]
  constructor
  · rintro ⟨i, hi1, rfl⟩
    rw [List.mem_range] at hi1
    omega
  · rintro ⟨h1, h2⟩
    refine ⟨(a - lo).toNat, ?_, ?_⟩
    · rw [List.mem_range]
      omega
    · omega

theorem rangeIncl_nodup (lo hi : ℤ) : (rangeIncl lo hi).Nodup := by
  unfold rangeIncl
  refine List.Nodup.map ?_ (List.nodup_range _)
  intro a b h
  have h2 : lo + (a : ℤ) = lo + (b : ℤ) := h
  omega

theorem mem_gridL {COLS ROWS : ℤ} {q : ℤ × ℤ} :
    q ∈ gridL COLS ROWS ↔ 0 ≤ q.1 ∧ q.1 < COLS ∧ 0 ≤ q.2 ∧ q.2 < ROWS := by
  obtain ⟨x, y⟩ := q
  unfold gridL
  rw [List.pair_mem_product, mem_rangeIncl, mem_rangeIncl]
  omega

theorem gridL_nodup (COLS ROWS : ℤ) : (gridL COLS ROWS).Nodup :=
  (rangeIncl_nodup _ _).product (rangeIncl_nodup _ _)

theorem mem_nbrs {COLS ROWS : ℤ} {p q : ℤ × ℤ} :
    q ∈ nbrs COLS ROWS p ↔
      max 0 (p.1 - 1) ≤ q.1 ∧ q.1 ≤ min (COLS - 1) (p.1 + 1) ∧
        max 0 (p.2 - 1) ≤ q.2 ∧ q.2 ≤ min (ROWS - 1) (p.2 + 1) := by
  obtain ⟨x, y⟩ := q
  unfold nbrs
  rw [List.pair_mem_product, mem_rangeIncl, mem_rangeIncl]
  omega

theorem nbrs_subset_gridL {COLS ROWS : ℤ} {p q : ℤ × ℤ}
    (h : q ∈ nbrs COLS ROWS p) : q ∈ gridL COLS ROWS := by
  rw [mem_nbrs] at h
  rw [mem_gridL]
  omega

theorem self_mem_nbrs {COLS ROWS : ℤ} {p : ℤ × ℤ}
    (h : p ∈ gridL COLS ROWS) : p ∈ nbrs COLS ROWS p := by
  rw [mem_gridL] at h
  rw [mem_nbrs]
  omega

/-! ### Facts about `undug`, the flood-fill measure -/

theorem undug_le_numTiles (COLS ROWS : ℤ) (s : Board) :
    undug COLS ROWS s ≤ numTiles COLS ROWS :=
  (gridL COLS ROWS).length_filter_le _

theorem undug_mono {COLS ROWS : ℤ} {s t : Board} (h : s.dug ⊆ t.dug) :
    undug COLS ROWS t ≤ undug COLS ROWS s := by
  unfold undug
  apply List.Sublist.length_le
  apply List.monotone_filter_right
  intro r hr
  simp only [decide_eq_true_eq] at *
  exact fun hc => hr (h hc)

theorem length_filter_notmem_append_lt {α : Type} [DecidableEq α] (d : List α) (q : α)
    (hq : q ∉ d) : ∀ L : List α, q ∈ L →
    (L.filter (fun r => decide (r ∉ d ++ [q]))).length <
      (L.filter (fun r => decide (r ∉ d))).length := by
  intro L
  induction L with
  | nil => intro h; cases h
  | cons a l ih =>
    intro hmem
    by_cases hqa : a = q
    · subst hqa
      have h1 : (decide (a ∉ d ++ [a])) = false := by simp
      have h2 : (decide (a ∉ d)) = true := by simpa using hq
      have hsub : (l.filter (fun r => decide (r ∉ d ++ [a]))).length ≤
          (l.filter (fun r => decide (r ∉ d))).length := by
        apply List.Sublist.length_le
        apply List.monotone_filter_right
        intro r hr
        simp only [decide_eq_true_eq, List.mem_append] at *
        tauto
      simp only [List.filter_cons, h1, h2, Bool.false_eq_true, if_false, if_true,
        List.length_cons]
      omega
    · have hmem2 : q ∈ l := by
        rcases List.mem_cons.1 hmem with h | h
        · exact absurd h.symm hqa
        · exact h
      have hlt := ih hmem2
      by_cases had : a ∈ d
      · have h1 : (decide (a ∉ d ++ [q])) = false := by simp [had]
        have h2 : (decide (a ∉ d)) = false := by simp [had]
        simp only [List.filter_cons, h1, h2, Bool.false_eq_true, if_false]
        exact hlt
      · have h1 : (decide (a ∉ d ++ [q])) = true := by
          simp [List.mem_append, had, hqa]
        have h2 : (decide (a ∉ d)) = true := by simpa using had
        simp only [List.filter_cons, h1, h2, if_true, List.length_cons]
        omega

theorem undug_pushDug_lt {COLS ROWS : ℤ} {s : Board} {q : ℤ × ℤ}
    (hg : q ∈ gridL COLS ROWS) (hd : q ∉ s.dug) :
    undug COLS ROWS (pushDug s q) < undug COLS ROWS s := by
  have h := length_filter_notmem_append_lt s.dug q hd _ hg
  simpa [undug, pushDug] using h

theorem undug_pushDug_le {COLS ROWS : ℤ} (s : Board) (q : ℤ × ℤ) :
    undug COLS ROWS (pushDug s q) ≤ undug COLS ROWS s :=
  undug_mono (by intro a ha; exact List.mem_append_left _ ha)

theorem undug_pos_of_notmem {COLS ROWS : ℤ} {s : Board} {q : ℤ × ℤ}
    (hg : q ∈ gridL COLS ROWS) (hd : q ∉ s.dug) : 1 ≤ undug COLS ROWS s := by
  have : q ∈ (gridL COLS ROWS).filter (fun r => decide (r ∉ s.dug)) :=
    List.mem_filter.2 ⟨hg, by simpa using hd⟩
  have := List.length_pos.2 (List.ne_nil_of_mem this)
  exact this

theorem undug_pushDug_eq {COLS ROWS : ℤ} {s : Board} {q : ℤ × ℤ}
    (hg : q ∈ gridL COLS ROWS) (hd : q ∉ s.dug) :
    undug COLS ROWS (pushDug s q) + 1 ≤ undug COLS ROWS s :=
  undug_pushDug_lt hg hd

/-! ### Pointwise update lemmas -/

theorem updateGrid_same (b : Grid) (p : ℤ × ℤ) (t : Tile) : updateGrid b p t p = t := by
  simp [updateGrid]

theorem updateGrid_other (b : Grid) (p : ℤ × ℤ) (t : Tile) {q : ℤ × ℤ} (h : q ≠ p) :
    updateGrid b p t q = b q := by
  simp [updateGrid, h]

theorem revealAt_same (b : Grid) (p : ℤ × ℤ) :
    revealAt b p p = { b p with revealed := true } := updateGrid_same _ _ _

theorem revealAt_other (b : Grid) (p : ℤ × ℤ) {q : ℤ × ℤ} (h : q ≠ p) :
    revealAt b p q = b q := updateGrid_other _ _ _ h

theorem explodeAt_same (b : Grid) (p : ℤ × ℤ) :
    explodeAt b p p = { b p with revealed := true, image := TileImage.exploded } :=
  updateGrid_same _ _ _

theorem explodeAt_other (b : Grid) (p : ℤ × ℤ) {q : ℤ × ℤ} (h : q ≠ p) :
    explodeAt b p q = b q := updateGrid_other _ _ _ h

/-- Preservation relation between a grid before and after dig-style
operations: tile kinds and flags are untouched, `revealed` only ever flips
to `true`. -/
def BoardPres (b1 b2 : Grid) : Prop :=
  ∀ q, (b2 q).type = (b1 q).type ∧ (b2 q).flagged = (b1 q).flagged ∧
    ((b1 q).revealed = true → (b2 q).revealed = true)

theorem boardPres_refl (b : Grid) : BoardPres b b := fun _ => ⟨rfl, rfl, fun h => h⟩

theorem boardPres_trans {a b c : Grid} (h1 : BoardPres a b) (h2 : BoardPres b c) :
    BoardPres a c := by
  intro q
  obtain ⟨t1, f1, r1⟩ := h1 q
  obtain ⟨t2, f2, r2⟩ := h2 q
  exact ⟨t2.trans t1, f2.trans f1, fun h => r2 (r1 h)⟩

theorem boardPres_revealAt (b : Grid) (p : ℤ × ℤ) : BoardPres b (revealAt b p) := by
  intro q
  by_cases h : q = p
  · subst h
    simp [revealAt, updateGrid_same]
  · simp [revealAt, updateGrid_other _ _ _ h]

theorem boardPres_explodeAt (b : Grid) (p : ℤ × ℤ) : BoardPres b (explodeAt b p) := by
  intro q
  by_cases h : q = p
  · subst h
    simp [explodeAt, updateGrid_same]
  · simp [explodeAt, updateGrid_other _ _ _ h]

/-! ### Unfolding equations for the flood-fill -/

/-- State reached after the dig of `p` marks it dug and revealed, before
the flood-fill loop runs (`sprites.py` lines 188, 197). -/
def digInit (s : Board) (p : ℤ × ℤ) : Board :=
  { board_list := revealAt s.board_list p, dug := s.dug ++ [p] }

theorem digF_succ (COLS ROWS : ℤ) (f : ℕ) (s : Board) (p : ℤ × ℤ) :
    digF COLS ROWS (f + 1) s p =
      match (s.board_list p).type with
      | TileType.mine =>
        ({ board_list := explodeAt s.board_list p, dug := s.dug ++ [p] }, false)
      | TileType.clue =>
        ({ board_list := revealAt s.board_list p, dug := s.dug ++ [p] }, true)
      | TileType.dot =>
        ((nbrs COLS ROWS p).foldl (digStep COLS ROWS f) (digInit s p), true) := rfl

theorem digF_mine {COLS ROWS : ℤ} {f : ℕ} {s : Board} {p : ℤ × ℤ}
    (h : (s.board_list p).type = TileType.mine) :
    digF COLS ROWS (f + 1) s p =
      ({ board_list := explodeAt s.board_list p, dug := s.dug ++ [p] }, false) := by
  rw [digF_succ, h]

theorem digF_clue {COLS ROWS : ℤ} {f : ℕ} {s : Board} {p : ℤ × ℤ}
    (h : (s.board_list p).type = TileType.clue) :
    digF COLS ROWS (f + 1) s p =
      ({ board_list := revealAt s.board_list p, dug := s.dug ++ [p] }, true) := by
  rw [digF_succ, h]

theorem digF_dot {COLS ROWS : ℤ} {f : ℕ} {s : Board} {p : ℤ × ℤ}
    (h : (s.board_list p).type = TileType.dot) :
    digF COLS ROWS (f + 1) s p =
      ((nbrs COLS ROWS p).foldl (digStep COLS ROWS f) (digInit s p), true) := by
  rw [digF_succ, h]

/-! ### The dug list only grows -/

theorem digF_dug_subset (COLS ROWS : ℤ) :
    ∀ (f : ℕ) (s : Board) (p : ℤ × ℤ), s.dug ⊆ (digF COLS ROWS f s p).1.dug := by
  intro f
  induction f with
  | zero => intro s p a ha; exact ha
  | succ f ih =>
    have hfold : ∀ (l : List (ℤ × ℤ)) (s : Board),
        s.dug ⊆ (l.foldl (digStep COLS ROWS f) s).dug := by
      intro l
      induction l with
      | nil => intro s a ha; exact ha
      | cons q rest ihl =>
        intro s a ha
        rw [List.foldl_cons]
        apply ihl
        unfold digStep
        split
        · exact ha
        · exact ih s q ha
    intro s p a ha
    cases htype : (s.board_list p).type
    · rw [digF_dot htype]
      exact hfold _ _ (List.mem_append_left _ ha)
    · rw [digF_mine htype]
      exact List.mem_append_left _ ha
    · rw [digF_clue htype]
      exact List.mem_append_left _ ha

theorem digStep_dug_subset {COLS ROWS : ℤ} (f : ℕ) (s : Board) (q : ℤ × ℤ) :
    s.dug ⊆ (digStep COLS ROWS f s q).dug := by
  unfold digStep
  split
  · exact fun a ha => ha
  · exact fun a ha => digF_dug_subset COLS ROWS f s q ha

theorem foldl_digStep_dug_subset {COLS ROWS : ℤ} (f : ℕ) :
    ∀ (l : List (ℤ × ℤ)) (s : Board), s.dug ⊆ (l.foldl (digStep COLS ROWS f) s).dug := by
  intro l
  induction l with
  | nil => intro s a ha; exact ha
  | cons q rest ihl =>
    intro s a ha
    rw [List.foldl_cons]
    exact ihl _ (digStep_dug_subset f s q ha)

/-! ### Dig never changes kinds or flags and only reveals -/

theorem digF_pres (COLS ROWS : ℤ) :
    ∀ (f : ℕ) (s : Board) (p : ℤ × ℤ),
      BoardPres s.board_list (digF COLS ROWS f s p).1.board_list := by
  intro f
  induction f with
  | zero => intro s p; exact boardPres_refl _
  | succ f ih =>
    have hfold : ∀ (l : List (ℤ × ℤ)) (s : Board),
        BoardPres s.board_list (l.foldl (digStep COLS ROWS f) s).board_list := by
      intro l
      induction l with
      | nil => intro s; exact boardPres_refl _
      | cons q rest ihl =>
        intro s
        rw [List.foldl_cons]
        refine boardPres_trans ?_ (ihl _)
        unfold digStep
        split
        · exact boardPres_refl _
        · exact ih s q
    intro s p
    cases htype : (s.board_list p).type
    · rw [digF_dot htype]
      exact boardPres_trans (boardPres_revealAt _ _) (hfold _ _)
    · rw [digF_mine htype]
      exact boardPres_explodeAt _ _
    · rw [digF_clue htype]
      exact boardPres_revealAt _ _

theorem digStep_pres {COLS ROWS : ℤ} (f : ℕ) (s : Board) (q : ℤ × ℤ) :
    BoardPres s.board_list (digStep COLS ROWS f s q).board_list := by
  unfold digStep
  split
  · exact boardPres_refl _
  · exact digF_pres COLS ROWS f s q

theorem foldl_digStep_pres {COLS ROWS : ℤ} (f : ℕ) :
    ∀ (l : List (ℤ × ℤ)) (s : Board),
      BoardPres s.board_list (l.foldl (digStep COLS ROWS f) s).board_list := by
  intro l
  induction l with
  | nil => intro s; exact boardPres_refl _
  | cons q rest ihl =>
    intro s
    rw [List.foldl_cons]
    exact boardPres_trans (digStep_pres f s q) (ihl _)

theorem tyMap_eq_of_pres {b1 b2 : Grid} (h : BoardPres b1 b2) : tyMap b2 = tyMap b1 :=
  funext fun q => (h q).1

/-! ### The dug coordinate is recorded, and the loop covers its list -/

theorem digF_self_mem {COLS ROWS : ℤ} {f : ℕ} (s : Board) (p : ℤ × ℤ) :
    p ∈ (digF COLS ROWS (f + 1) s p).1.dug := by
  cases htype : (s.board_list p).type
  · rw [digF_dot htype]
    exact foldl_digStep_dug_subset f _ _ (List.mem_append_right _ (List.mem_singleton.2 rfl))
  · rw [digF_mine htype]
    exact List.mem_append_right _ (List.mem_singleton.2 rfl)
  · rw [digF_clue htype]
    exact List.mem_append_right _ (List.mem_singleton.2 rfl)

theorem digF_snd {COLS ROWS : ℤ} {f : ℕ} (s : Board) (p : ℤ × ℤ) :
    (digF COLS ROWS (f + 1) s p).2 = !decide ((s.board_list p).type = TileType.mine) := by
  cases htype : (s.board_list p).type
  · rw [digF_dot htype]
    simp [htype]
  · rw [digF_mine htype]
    simp [htype]
  · rw [digF_clue htype]
    simp [htype]

theorem digStep_undug_le {COLS ROWS : ℤ} (f : ℕ) (s : Board) (q : ℤ × ℤ) :
    undug COLS ROWS (digStep COLS ROWS f s q) ≤ undug COLS ROWS s :=
  undug_mono (digStep_dug_subset f s q)

/-- The flood-fill loop digs every coordinate of its list: each is either
already dug (and the dug list only grows) or gets dug at its turn. -/
theorem foldl_digStep_covers {COLS ROWS : ℤ} (f : ℕ) :
    ∀ (l : List (ℤ × ℤ)) (s : Board), (∀ a ∈ l, a ∈ gridL COLS ROWS) →
      undug COLS ROWS s ≤ f →
      ∀ a ∈ l, a ∈ (l.foldl (digStep COLS ROWS f) s).dug := by
  intro l
  induction l with
  | nil => intro s _ _ a ha; cases ha
  | cons q rest ihl =>
    intro s hgrid hless a ha
    rw [List.foldl_cons]
    rcases List.mem_cons.1 ha with heq | har
    · apply foldl_digStep_dug_subset
      rw [heq]
      unfold digStep
      split
      · assumption
      · rename_i hq
        have h1 : 1 ≤ undug COLS ROWS s :=
          undug_pos_of_notmem (hgrid q (List.mem_cons_self _ _)) hq
        obtain ⟨f2, rfl⟩ : ∃ f2, f = f2 + 1 := ⟨f - 1, by omega⟩
        exact digF_self_mem s q
    · exact ihl _ (fun b hb => hgrid b (List.mem_cons_of_mem _ hb))
        (le_trans (digStep_undug_le f s q) hless) a har

/-! ### Everything newly dug is flood-fill-reachable from the origin -/

theorem digF_dug_sound (COLS ROWS : ℤ) :
    ∀ (f : ℕ) (s : Board) (p : ℤ × ℤ),
      ∀ q ∈ (digF COLS ROWS f s p).1.dug,
        q ∈ s.dug ∨ reach COLS ROWS (tyMap s.board_list) p q := by
  intro f
  induction f with
  | zero => intro s p q hq; exact Or.inl hq
  | succ f ih =>
    have hfold : ∀ (l : List (ℤ × ℤ)) (s : Board),
        ∀ q ∈ (l.foldl (digStep COLS ROWS f) s).dug,
          q ∈ s.dug ∨ ∃ a ∈ l, reach COLS ROWS (tyMap s.board_list) a q := by
      intro l
      induction l with
      | nil => intro s q hq; exact Or.inl hq
      | cons a rest ihl =>
        intro s q hq
        rw [List.foldl_cons] at hq
        have htm : tyMap (digStep COLS ROWS f s a).board_list = tyMap s.board_list :=
          tyMap_eq_of_pres (digStep_pres f s a)
        rcases ihl (digStep COLS ROWS f s a) q hq with h1 | ⟨b, hb, hr⟩
        · unfold digStep at h1
          split at h1
          · exact Or.inl h1
          · rcases ih s a q h1 with h2 | h2
            · exact Or.inl h2
            · exact Or.inr ⟨a, List.mem_cons_self _ _, h2⟩
        · rw [htm] at hr
          exact Or.inr ⟨b, List.mem_cons_of_mem _ hb, hr⟩
    intro s p q hq
    cases htype : (s.board_list p).type
    · rw [digF_dot htype] at hq
      have htm : tyMap (digInit s p).board_list = tyMap s.board_list :=
        tyMap_eq_of_pres (boardPres_revealAt _ _)
      rcases hfold _ _ q hq with h1 | ⟨a, ha, hr⟩
      · rcases List.mem_append.1 h1 with h2 | h2
        · exact Or.inl h2
        · rw [List.mem_singleton.1 h2]
          exact Or.inr Relation.ReflTransGen.refl
      · rw [htm] at hr
        exact Or.inr (Relation.ReflTransGen.head ⟨htype, ha⟩ hr)
    · rw [digF_mine htype] at hq
      rcases List.mem_append.1 hq with h2 | h2
      · exact Or.inl h2
      · rw [List.mem_singleton.1 h2]
        exact Or.inr Relation.ReflTransGen.refl
    · rw [digF_clue htype] at hq
      rcases List.mem_append.1 hq with h2 | h2
      · exact Or.inl h2
      · rw [List.mem_singleton.1 h2]
        exact Or.inr Relation.ReflTransGen.refl

/-! ### Newly revealed tiles are dug, and dug tiles are revealed -/

theorem digF_revealed_mem_dug (COLS ROWS : ℤ) :
    ∀ (f : ℕ) (s : Board) (p : ℤ × ℤ) (q : ℤ × ℤ),
      ((digF COLS ROWS f s p).1.board_list q).revealed = true →
        (s.board_list q).revealed = true ∨ q ∈ (digF COLS ROWS f s p).1.dug := by
  intro f
  induction f with
  | zero => intro s p q hq; exact Or.inl hq
  | succ f ih =>
    have hfold : ∀ (l : List (ℤ × ℤ)) (s : Board) (q : ℤ × ℤ),
        ((l.foldl (digStep COLS ROWS f) s).board_list q).revealed = true →
          (s.board_list q).revealed = true ∨ q ∈ (l.foldl (digStep COLS ROWS f) s).dug := by
      intro l
      induction l with
      | nil => intro s q hq; exact Or.inl hq
      | cons a rest ihl =>
        intro s q hq
        rw [List.foldl_cons] at hq ⊢
        rcases ihl (digStep COLS ROWS f s a) q hq with h1 | h1
        · unfold digStep at h1
          split at h1
          · exact Or.inl h1
          · rcases ih s a q h1 with h2 | h2
            · exact Or.inl h2
            · refine Or.inr (foldl_digStep_dug_subset f _ _ ?_)
              unfold digStep
              rename_i hnot
              rw [if_neg hnot]
              exact h2
        · exact Or.inr h1
    intro s p q hq
    cases htype : (s.board_list p).type
    · rw [digF_dot htype] at hq ⊢
      rcases hfold _ _ q hq with h1 | h1
      · by_cases hqp : q = p
        · subst hqp
          refine Or.inr (foldl_digStep_dug_subset f _ _ ?_)
          exact List.mem_append_right _ (List.mem_singleton.2 rfl)
        · left
          have h2 : (revealAt s.board_list p q).revealed = true := h1
          rwa [revealAt_other _ _ hqp] at h2
      · exact Or.inr h1
    · rw [digF_mine htype] at hq ⊢
      by_cases hqp : q = p
      · subst hqp
        exact Or.inr (List.mem_append_right _ (List.mem_singleton.2 rfl))
      · left
        have h2 : (explodeAt s.board_list p q).revealed = true := hq
        rwa [explodeAt_other _ _ hqp] at h2
    · rw [digF_clue htype] at hq ⊢
      by_cases hqp : q = p
      · subst hqp
        exact Or.inr (List.mem_append_right _ (List.mem_singleton.2 rfl))
      · left
        have h2 : (revealAt s.board_list p q).revealed = true := hq
        rwa [revealAt_other _ _ hqp] at h2

theorem digF_dug_revealed (COLS ROWS : ℤ) :
    ∀ (f : ℕ) (s : Board) (p : ℤ × ℤ),
      (∀ q ∈ s.dug, (s.board_list q).revealed = true) →
      ∀ q ∈ (digF COLS ROWS f s p).1.dug,
        ((digF COLS ROWS f s p).1.board_list q).revealed = true := by
  intro f
  induction f with
  | zero => intro s p hinv q hq; exact hinv q hq
  | succ f ih =>
    have hfold : ∀ (l : List (ℤ × ℤ)) (s : Board),
        (∀ q ∈ s.dug, (s.board_list q).revealed = true) →
        ∀ q ∈ (l.foldl (digStep COLS ROWS f) s).dug,
          ((l.foldl (digStep COLS ROWS f) s).board_list q).revealed = true := by
      intro l
      induction l with
      | nil => intro s hinv q hq; exact hinv q hq
      | cons a rest ihl =>
        intro s hinv q hq
        rw [List.foldl_cons] at hq ⊢
        refine ihl (digStep COLS ROWS f s a) ?_ q hq
        intro r hr
        unfold digStep at hr ⊢
        split at hr
        · rename_i hmem
          rw [if_pos hmem]
          exact hinv r hr
        · rename_i hmem
          rw [if_neg hmem]
          exact ih s a hinv r hr
    intro s p hinv q hq
    have hrevealed_digInit : ∀ r ∈ (digInit s p).dug,
        ((digInit s p).board_list r).revealed = true := by
      intro r hr
      rcases List.mem_append.1 hr with h1 | h1
      · by_cases hrp : r = p
        · subst hrp
          show (revealAt s.board_list r r).revealed = true
          rw [show revealAt s.board_list r r = _ from updateGrid_same _ _ _]
        · rw [show (digInit s p).board_list r = s.board_list r from
            updateGrid_other _ _ _ hrp]
          exact hinv r h1
      · rw [List.mem_singleton.1 h1]
        show (revealAt s.board_list p p).revealed = true
        rw [show revealAt s.board_list p p = _ from updateGrid_same _ _ _]
    cases htype : (s.board_list p).type
    · rw [digF_dot htype] at hq ⊢
      exact hfold _ _ hrevealed_digInit q hq
    · rw [digF_mine htype] at hq ⊢
      show (explodeAt s.board_list p q).revealed = true
      have hq2 : q ∈ s.dug ++ [p] := hq
      by_cases hqp : q = p
      · subst hqp
        rw [explodeAt_same]
      · rw [explodeAt_other _ _ hqp]
        rcases List.mem_append.1 hq2 with h1 | h1
        · exact hinv q h1
        · exact absurd (List.mem_singleton.1 h1) hqp
    · rw [digF_clue htype] at hq ⊢
      show (revealAt s.board_list p q).revealed = true
      have hq2 : q ∈ s.dug ++ [p] := hq
      by_cases hqp : q = p
      · subst hqp
        rw [revealAt_same]
      · rw [revealAt_other _ _ hqp]
        rcases List.mem_append.1 hq2 with h1 | h1
        · exact hinv q h1
        · exact absurd (List.mem_singleton.1 h1) hqp

/-! ### Closure: a newly dug empty tile has its whole 3x3 box dug -/

theorem digF_new_closure (COLS ROWS : ℤ) :
    ∀ (f : ℕ) (s : Board) (p : ℤ × ℤ),
      undug COLS ROWS (pushDug s p) < f →
      ∀ q, q ∈ (digF COLS ROWS f s p).1.dug → q ∉ s.dug →
        (s.board_list q).type = TileType.dot →
        ∀ r ∈ nbrs COLS ROWS q, r ∈ (digF COLS ROWS f s p).1.dug := by
  intro f
  induction f with
  | zero => intro s p hf; omega
  | succ f ih =>
    have hfold : ∀ (l : List (ℤ × ℤ)) (s : Board),
        undug COLS ROWS s ≤ f → (∀ a ∈ l, a ∈ gridL COLS ROWS) →
        ∀ q, q ∈ (l.foldl (digStep COLS ROWS f) s).dug → q ∉ s.dug →
          (s.board_list q).type = TileType.dot →
          ∀ r ∈ nbrs COLS ROWS q, r ∈ (l.foldl (digStep COLS ROWS f) s).dug := by
      intro l
      induction l with
      | nil => intro s _ _ q hq hnq _ r _; exact absurd hq hnq
      | cons a rest ihl =>
        intro s hless hgrid q hq hnq htq r hr
        rw [List.foldl_cons] at hq ⊢
        by_cases hmem : a ∈ s.dug
        · have hstep : digStep COLS ROWS f s a = s := by
            unfold digStep; rw [if_pos hmem]
          rw [hstep] at hq ⊢
          exact ihl s hless (fun b hb => hgrid b (List.mem_cons_of_mem _ hb)) q hq hnq htq r hr
        · have hstep : digStep COLS ROWS f s a = (digF COLS ROWS f s a).1 := by
            unfold digStep; rw [if_neg hmem]
          rw [hstep] at hq ⊢
          by_cases hq1 : q ∈ (digF COLS ROWS f s a).1.dug
          · have hga : a ∈ gridL COLS ROWS := hgrid a (List.mem_cons_self _ _)
            have hf1 : undug COLS ROWS (pushDug s a) < f := by
              have := undug_pushDug_lt hga hmem
              omega
            have hcl := ih s a hf1 q hq1 hnq htq r hr
            exact foldl_digStep_dug_subset f rest _ hcl
          · refine ihl _ ?_ (fun b hb => hgrid b (List.mem_cons_of_mem _ hb)) q hq hq1 ?_ r hr
            · exact le_trans (undug_mono (digF_dug_subset COLS ROWS f s a)) hless
            · rw [(digF_pres COLS ROWS f s a q).1]
              exact htq
    intro s p hf q hq hnq htq r hr
    have hf2 : undug COLS ROWS (pushDug s p) ≤ f := by omega
    have hundug : undug COLS ROWS (digInit s p) = undug COLS ROWS (pushDug s p) := rfl
    cases htype : (s.board_list p).type
    · rw [digF_dot htype] at hq ⊢
      by_cases hqp : q = p
      · subst hqp
        exact foldl_digStep_covers f (nbrs COLS ROWS q) (digInit s q)
          (fun b hb => nbrs_subset_gridL hb) (by omega) r hr
      · have hnq2 : q ∉ (digInit s p).dug := by
          intro hc
          rcases List.mem_append.1 hc with h1 | h1
          · exact hnq h1
          · exact hqp (List.mem_singleton.1 h1)
        have htq2 : ((digInit s p).board_list q).type = TileType.dot := by
          show (revealAt s.board_list p q).type = TileType.dot
          rw [revealAt_other _ _ hqp]
          exact htq
        exact hfold (nbrs COLS ROWS p) (digInit s p) (by omega)
          (fun b hb => nbrs_subset_gridL hb) q hq hnq2 htq2 r hr
    · rw [digF_mine htype] at hq
      have hq2 : q ∈ s.dug ++ [p] := hq
      rcases List.mem_append.1 hq2 with h1 | h1
      · exact absurd h1 hnq
      · rw [List.mem_singleton.1 h1] at htq
        rw [htype] at htq
        cases htq
    · rw [digF_clue htype] at hq
      have hq2 : q ∈ s.dug ++ [p] := hq
      rcases List.mem_append.1 hq2 with h1 | h1
      · exact absurd h1 hnq
      · rw [List.mem_singleton.1 h1] at htq
        rw [htype] at htq
        cases htq

/-! ### Fuel indifference: any fuel above the undug count gives the same
result, so the recursion depth of `dig` is bounded by the board size -/

theorem digF_fuel_indep (COLS ROWS : ℤ) :
    ∀ (f g : ℕ) (s : Board) (p : ℤ × ℤ),
      undug COLS ROWS (pushDug s p) < f → undug COLS ROWS (pushDug s p) < g →
      digF COLS ROWS f s p = digF COLS ROWS g s p := by
  intro f
  induction f using Nat.strong_induction_on with
  | _ f ihf =>
    intro g s p hf hg
    obtain ⟨f1, rfl⟩ : ∃ f1, f = f1 + 1 := ⟨f - 1, by omega⟩
    obtain ⟨g1, rfl⟩ : ∃ g1, g = g1 + 1 := ⟨g - 1, by omega⟩
    cases htype : (s.board_list p).type
    · rw [digF_dot htype, digF_dot htype]
      have hfold : ∀ (l : List (ℤ × ℤ)) (s2 : Board),
          (∀ a ∈ l, a ∈ gridL COLS ROWS) →
          undug COLS ROWS s2 ≤ f1 → undug COLS ROWS s2 ≤ g1 →
          l.foldl (digStep COLS ROWS f1) s2 = l.foldl (digStep COLS ROWS g1) s2 := by
        intro l
        induction l with
        | nil => intro s2 _ _ _; rfl
        | cons a rest ihl =>
          intro s2 hgrid h1 h2
          rw [List.foldl_cons, List.foldl_cons]
          by_cases hmem : a ∈ s2.dug
          · have e1 : digStep COLS ROWS f1 s2 a = s2 := by
              unfold digStep; rw [if_pos hmem]
            have e2 : digStep COLS ROWS g1 s2 a = s2 := by
              unfold digStep; rw [if_pos hmem]
            rw [e1, e2]
            exact ihl s2 (fun b hb => hgrid b (List.mem_cons_of_mem _ hb)) h1 h2
          · have hga : a ∈ gridL COLS ROWS := hgrid a (List.mem_cons_self _ _)
            have hpl := undug_pushDug_lt (s := s2) hga hmem
            have hlt1 : undug COLS ROWS (pushDug s2 a) < f1 := by omega
            have hlt2 : undug COLS ROWS (pushDug s2 a) < g1 := by omega
            have heq : digF COLS ROWS f1 s2 a = digF COLS ROWS g1 s2 a :=
              ihf f1 (by omega) g1 s2 a hlt1 hlt2
            have e1 : digStep COLS ROWS f1 s2 a = (digF COLS ROWS f1 s2 a).1 := by
              unfold digStep; rw [if_neg hmem]
            have e2 : digStep COLS ROWS g1 s2 a = (digF COLS ROWS g1 s2 a).1 := by
              unfold digStep; rw [if_neg hmem]
            rw [e1, e2, heq]
            refine ihl _ (fun b hb => hgrid b (List.mem_cons_of_mem _ hb)) ?_ ?_
            · exact le_trans (undug_mono (digF_dug_subset COLS ROWS g1 s2 a)) h1
            · exact le_trans (undug_mono (digF_dug_subset COLS ROWS g1 s2 a)) h2
      have hundug : undug COLS ROWS (digInit s p) = undug COLS ROWS (pushDug s p) := rfl
      rw [hfold (nbrs COLS ROWS p) (digInit s p) (fun b hb => nbrs_subset_gridL hb)
        (by omega) (by omega)]
    · rw [digF_mine htype, digF_mine htype]
    · rw [digF_clue htype, digF_clue htype]

/-! ### Classifying flood-fill-reachable cells on a well-formed board -/

/-- On a well-formed board, every cell reachable from an in-bounds empty
origin is in bounds and lies either in the empty region of the origin or
on its clue border (in particular it is never a mine). -/
theorem reach_classify {COLS ROWS : ℤ} {b : Grid} (hwf : wfGrid COLS ROWS b)
    {p q : ℤ × ℤ} (hp : p ∈ gridL COLS ROWS) (hdot : (b p).type = TileType.dot)
    (h : reach COLS ROWS (tyMap b) p q) :
    q ∈ gridL COLS ROWS ∧ (Region COLS ROWS b p q ∨ Border COLS ROWS b p q) := by
  induction h with
  | refl => exact ⟨hp, Or.inl ⟨hdot, Relation.ReflTransGen.refl⟩⟩
  | tail h1 h2 ih =>
    rename_i m q
    have hmdot : (b m).type = TileType.dot := h2.1
    have hmgrid : m ∈ gridL COLS ROWS := ih.1
    have hmregion : Region COLS ROWS b p m := by
      rcases ih.2 with hr | hb
      · exact hr
      · have hclue : (b m).type = TileType.clue := hb.1
        rw [hmdot] at hclue
        cases hclue
    have hqgrid : q ∈ gridL COLS ROWS := nbrs_subset_gridL h2.2
    have hqnotmine : (b q).type ≠ TileType.mine := hwf m hmgrid hmdot q h2.2
    refine ⟨hqgrid, ?_⟩
    cases hqt : (b q).type
    · exact Or.inl ⟨hqt, Relation.ReflTransGen.tail hmregion.2 h2⟩
    · exact absurd hqt hqnotmine
    · exact Or.inr ⟨hqt, m, hmregion, h2.2⟩

/-! ### The cascade characterization at the `dig` wrapper level -/

theorem dig_dug_closure {COLS ROWS : ℤ} {s : Board} {p : ℤ × ℤ}
    (hinv : DugInv COLS ROWS s) :
    ∀ q ∈ (dig COLS ROWS s p).1.dug, (s.board_list q).type = TileType.dot →
      ∀ r ∈ nbrs COLS ROWS q, r ∈ (dig COLS ROWS s p).1.dug := by
  intro q hq htq r hr
  by_cases hqs : q ∈ s.dug
  · exact digF_dug_subset COLS ROWS _ s p (hinv.2 q hqs htq r hr)
  · have hfuel : undug COLS ROWS (pushDug s p) < numTiles COLS ROWS + 1 :=
      lt_of_le_of_lt (undug_pushDug_le s p)
        (Nat.lt_succ_of_le (undug_le_numTiles COLS ROWS s))
    exact digF_new_closure COLS ROWS _ s p hfuel q hq hqs htq r hr

theorem dig_reach_mem_dug {COLS ROWS : ℤ} {s : Board} {p : ℤ × ℤ}
    (hinv : DugInv COLS ROWS s) :
    ∀ q, reach COLS ROWS (tyMap s.board_list) p q → q ∈ (dig COLS ROWS s p).1.dug := by
  intro q h
  induction h with
  | refl => exact digF_self_mem s p
  | tail h1 h2 ih => exact dig_dug_closure hinv _ ih h2.1 _ h2.2

/-! ### Pointwise evaluation of the controller's grid sweeps -/

/-- A fold of independent per-tile updates over a duplicate-free
coordinate list acts pointwise. -/
theorem foldl_tileStep_eq (f : (ℤ × ℤ) → Tile → Tile) :
    ∀ l : List (ℤ × ℤ), l.Nodup → ∀ (b : Grid) (q : ℤ × ℤ),
      (l.foldl (tileStep f) b) q = if q ∈ l then f q (b q) else b q := by
  intro l
  induction l with
  | nil => intro _ b q; simp
  | cons a rest ih =>
    intro hnd b q
    have hnd2 := List.nodup_cons.1 hnd
    rw [List.foldl_cons, ih hnd2.2]
    by_cases hq : q = a
    · subst hq
      have hqr : q ∉ rest := hnd2.1
      have : tileStep f b q q = f q (b q) := updateGrid_same _ _ _
      simp [hqr, this]
    · have : tileStep f b a q = b q := updateGrid_other _ _ _ hq
      rw [this]
      by_cases hqr : q ∈ rest
      · simp [hqr, List.mem_cons, hq]
      · simp [hqr, List.mem_cons, hq]

theorem countP_congr_list {α : Type} (l : List α) (p q : α → Bool)
    (h : ∀ a ∈ l, p a = q a) : l.countP p = l.countP q := by
  induction l with
  | nil => rfl
  | cons a t ih =>
    rw [List.countP_cons, List.countP_cons, h a (List.mem_cons_self _ _),
      ih (fun b hb => h b (List.mem_cons_of_mem _ hb))]

/-! ### `check_win` is exactly the win condition of the spec -/

theorem check_win_iff (COLS ROWS : ℤ) (b : Grid) :
    check_win COLS ROWS b = true ↔
      ∀ p ∈ gridL COLS ROWS, (b p).type ≠ TileType.mine → (b p).revealed = true := by
  unfold check_win
  rw [List.all_eq_true]
  constructor
  · intro h p hp hmine
    have h2 := h p hp
    by_cases hrev : (b p).revealed
    · exact hrev
    · exfalso
      revert h2
      simp [hmine, hrev]
  · intro h p hp
    by_cases hmine : (b p).type = TileType.mine
    · simp [hmine]
    · simp [hmine, h p hp hmine]

/-! ### Pointwise characterization of `place_clues` -/

/-- The effect of the clue pass at one tile, with neighbour counts taken
on the original grid `b0` (legitimate because the pass never changes
which tiles are mines). -/
def clueWrite (COLS ROWS : ℤ) (b0 : Grid) (t : Tile) (p : ℤ × ℤ) : Tile :=
  if t.type ≠ TileType.mine then
    if 0 < check_neighbours COLS ROWS b0 p.1 p.2 then
      { t with image := TileImage.number (check_neighbours COLS ROWS b0 p.1 p.2),
               type := TileType.clue }
    else t
  else t

theorem check_neighbours_congr {COLS ROWS : ℤ} {b1 b2 : Grid} (x y : ℤ)
    (h : ∀ q, (b1 q).type = TileType.mine ↔ (b2 q).type = TileType.mine) :
    check_neighbours COLS ROWS b1 x y = check_neighbours COLS ROWS b2 x y := by
  unfold check_neighbours
  apply countP_congr_list
  intro o _
  have := h (x + o.1, y + o.2)
  by_cases h1 : (b1 (x + o.1, y + o.2)).type = TileType.mine
  · simp [h1, this.1 h1]
  · have h2 : ¬(b2 (x + o.1, y + o.2)).type = TileType.mine := fun hc => h1 (this.2 hc)
    simp [h1, h2]

theorem clueStep_mine_iff (COLS ROWS : ℤ) (b : Grid) (p q : ℤ × ℤ) :
    ((clueStep COLS ROWS b p) q).type = TileType.mine ↔ (b q).type = TileType.mine := by
  unfold clueStep
  split
  · rename_i hne
    split
    · by_cases hq : q = p
      · subst hq
        rw [updateGrid_same]
        constructor
        · intro hc; cases hc
        · intro hc; exact absurd hc hne
      · rw [updateGrid_other _ _ _ hq]
    · exact Iff.rfl
  · exact Iff.rfl

theorem foldl_clueStep_eq (COLS ROWS : ℤ) (b0 : Grid) :
    ∀ l : List (ℤ × ℤ), l.Nodup → ∀ b : Grid,
      (∀ q, (b q).type = TileType.mine ↔ (b0 q).type = TileType.mine) →
      ∀ p, (l.foldl (clueStep COLS ROWS) b) p =
        if p ∈ l then clueWrite COLS ROWS b0 (b p) p else b p := by
  intro l
  induction l with
  | nil => intro _ b _ p; simp
  | cons a rest ih =>
    intro hnd b hagree p
    have hnd2 := List.nodup_cons.1 hnd
    have hagree2 : ∀ q, ((clueStep COLS ROWS b a) q).type = TileType.mine ↔
        (b0 q).type = TileType.mine :=
      fun q => (clueStep_mine_iff COLS ROWS b a q).trans (hagree q)
    have hcnt : check_neighbours COLS ROWS b a.1 a.2 =
        check_neighbours COLS ROWS b0 a.1 a.2 :=
      check_neighbours_congr a.1 a.2 hagree
    rw [List.foldl_cons, ih hnd2.2 _ hagree2]
    by_cases hp : p = a
    · subst hp
      have hpr : p ∉ rest := hnd2.1
      have hstep : (clueStep COLS ROWS b p) p = clueWrite COLS ROWS b0 (b p) p := by
        unfold clueStep clueWrite
        rw [hcnt]
        split
        · split
          · rw [updateGrid_same]
          · rfl
        · rfl
      simp [hpr, hstep]
    · have hstep : (clueStep COLS ROWS b a) p = b p := by
        unfold clueStep
        split
        · split
          · rw [updateGrid_other _ _ _ hp]
          · rfl
        · rfl
      rw [hstep]
      by_cases hpr : p ∈ rest
      · simp [hpr, List.mem_cons, hp]
      · simp [hpr, List.mem_cons, hp]

/-- `place_clues` acts pointwise: inside the grid it applies `clueWrite`
with counts taken on the input grid, outside it does nothing. -/
theorem place_clues_eval (COLS ROWS : ℤ) (b : Grid) (p : ℤ × ℤ) :
    place_clues COLS ROWS b p =
      if p ∈ gridL COLS ROWS then clueWrite COLS ROWS b (b p) p else b p :=
  foldl_clueStep_eq COLS ROWS b _ (gridL_nodup COLS ROWS) b (fun _ => Iff.rfl) p

/-! ### The neighbour scan counts exactly the in-bounds mine neighbours -/

/-- Spec-side neighbour count: the number of real (in-bounds) cells other
than `p` itself, at Chebyshev distance at most 1 from `p`, that hold a
mine. -/
def mineNeighbourCount (COLS ROWS : ℤ) (b : Grid) (p : ℤ × ℤ) : ℕ :=
  (gridL COLS ROWS).countP (fun q => decide (q ≠ p ∧
    p.1 - 1 ≤ q.1 ∧ q.1 ≤ p.1 + 1 ∧ p.2 - 1 ≤ q.2 ∧ q.2 ≤ p.2 + 1 ∧
    (b q).type = TileType.mine))

theorem is_inside_iff {COLS ROWS : ℤ} {q : ℤ × ℤ} :
    is_inside COLS ROWS q.1 q.2 = true ↔ q ∈ gridL COLS ROWS := by
  rw [mem_gridL]
  simp [is_inside]

theorem mem_offsets_product {o : ℤ × ℤ} :
    o ∈ offsetsL.product offsetsL ↔ -1 ≤ o.1 ∧ o.1 ≤ 1 ∧ -1 ≤ o.2 ∧ o.2 ≤ 1 := by
  obtain ⟨u, v⟩ := o
  rw [List.pair_mem_product]
  simp only [offsetsL, List.mem_cons, List.mem_singleton, List.not_mem_nil]
  constructor
  · rintro ⟨h1, h2⟩
    rcases h1 with rfl | rfl | rfl | h <;> rcases h2 with rfl | rfl | rfl | h2 <;>
      first
        | (constructor <;> omega)
        | omega
        | cases h
        | cases h2
  · rintro ⟨h1, h2, h3, h4⟩
    constructor <;> omega

/-- `check_neighbours` computes the spec-side neighbour count on non-mine
tiles: out-of-grid cells contribute nothing, each in-bounds neighbouring
mine contributes exactly one. -/
theorem check_neighbours_eq_spec (COLS ROWS : ℤ) (b : Grid) (p : ℤ × ℤ)
    (hmine : (b p).type ≠ TileType.mine) :
    check_neighbours COLS ROWS b p.1 p.2 = mineNeighbourCount COLS ROWS b p := by
  have hφinj : Function.Injective (fun o : ℤ × ℤ => (p.1 + o.1, p.2 + o.2)) := by
    intro a c h
    rw [Prod.ext_iff] at h ⊢
    obtain ⟨h1, h2⟩ := h
    simp only at h1 h2 ⊢
    omega
  have hoffs : (offsetsL.product offsetsL).Nodup := by decide
  have hM : ((offsetsL.product offsetsL).map
      (fun o : ℤ × ℤ => (p.1 + o.1, p.2 + o.2))).Nodup := hoffs.map hφinj
  have hL : check_neighbours COLS ROWS b p.1 p.2 =
      (((offsetsL.product offsetsL).map (fun o : ℤ × ℤ => (p.1 + o.1, p.2 + o.2))).countP
        (fun q => is_inside COLS ROWS q.1 q.2 && decide ((b q).type = TileType.mine))) := by
    rw [List.countP_map]
    rfl
  rw [hL]
  unfold mineNeighbourCount
  rw [List.countP_eq_length_filter, List.countP_eq_length_filter]
  have hperm : List.Perm
      (((offsetsL.product offsetsL).map
        (fun o : ℤ × ℤ => (p.1 + o.1, p.2 + o.2))).filter
          (fun q => is_inside COLS ROWS q.1 q.2 && decide ((b q).type = TileType.mine)))
      ((gridL COLS ROWS).filter (fun q => decide (q ≠ p ∧
        p.1 - 1 ≤ q.1 ∧ q.1 ≤ p.1 + 1 ∧ p.2 - 1 ≤ q.2 ∧ q.2 ≤ p.2 + 1 ∧
        (b q).type = TileType.mine))) := by
    refine (List.perm_ext_iff_of_nodup (hM.filter _) ((gridL_nodup COLS ROWS).filter _)).2 ?_
    intro q
    rw [List.mem_filter, List.mem_filter]
    constructor
    · rintro ⟨hqm, hpred⟩
      rw [List.mem_map] at hqm
      obtain ⟨o, ho, rfl⟩ := hqm
      rw [mem_offsets_product] at ho
      rw [Bool.and_eq_true, decide_eq_true_eq] at hpred
      obtain ⟨hin, hqmine⟩ := hpred
      have hgrid : (p.1 + o.1, p.2 + o.2) ∈ gridL COLS ROWS := is_inside_iff.1 hin
      refine ⟨hgrid, ?_⟩
      rw [decide_eq_true_eq]
      have hne : (p.1 + o.1, p.2 + o.2) ≠ p := by
        intro hc
        rw [hc] at hqmine
        exact hmine hqmine
      exact ⟨hne, by simp only; omega, by simp only; omega, by simp only; omega,
        by simp only; omega, hqmine⟩
    · rintro ⟨hgrid, hpred⟩
      rw [decide_eq_true_eq] at hpred
      obtain ⟨hne, hb1, hb2, hb3, hb4, hqmine⟩ := hpred
      constructor
      · rw [List.mem_map]
        refine ⟨(q.1 - p.1, q.2 - p.2), ?_, ?_⟩
        · rw [mem_offsets_product]
          constructor
          · simp only; omega
          · refine ⟨by simp only; omega, by simp only; omega, by simp only; omega⟩
        · rw [Prod.ext_iff]
          constructor <;> simp only <;> omega
      · rw [Bool.and_eq_true, decide_eq_true_eq]
        exact ⟨is_inside_iff.2 hgrid, hqmine⟩
  rw [hperm.length_eq]

/-! ### Mines survive the clue pass, and generated boards are well formed -/

theorem place_clues_mine_iff (COLS ROWS : ℤ) (b : Grid) (q : ℤ × ℤ) :
    ((place_clues COLS ROWS b) q).type = TileType.mine ↔ (b q).type = TileType.mine := by
  rw [place_clues_eval]
  split
  · unfold clueWrite
    split
    · rename_i hne
      split
      · constructor
        · intro hc; cases hc
        · intro hc; exact absurd hc hne
      · exact Iff.rfl
    · exact Iff.rfl
  · exact Iff.rfl

/-- After the clue pass, a tile that is still empty has no mine in its 3x3
box: any mine neighbour would have made its count positive and turned it
into a clue. -/
theorem place_clues_wfGrid (COLS ROWS : ℤ) (b : Grid) :
    wfGrid COLS ROWS (place_clues COLS ROWS b) := by
  intro p hp htp q hq hqmine
  rw [place_clues_mine_iff] at hqmine
  rw [place_clues_eval, if_pos hp] at htp
  unfold clueWrite at htp
  by_cases hbm : (b p).type = TileType.mine
  · rw [if_neg (by simpa using hbm)] at htp
    rw [hbm] at htp
    cases htp
  · rw [if_pos (by simpa using hbm)] at htp
    by_cases hcnt : 0 < check_neighbours COLS ROWS b p.1 p.2
    · rw [if_pos hcnt] at htp
      cases htp
    · rw [if_neg hcnt] at htp
      have hzero : check_neighbours COLS ROWS b p.1 p.2 = 0 := by omega
      rw [check_neighbours_eq_spec COLS ROWS b p hbm] at hzero
      have hqgrid : q ∈ gridL COLS ROWS := nbrs_subset_gridL hq
      have hqne : q ≠ p := by
        intro hc
        rw [hc, htp] at hqmine
        cases hqmine
      have hpos : 0 < mineNeighbourCount COLS ROWS b p := by
        rw [mineNeighbourCount, List.countP_pos_iff]
        refine ⟨q, hqgrid, ?_⟩
        rw [decide_eq_true_eq]
        rw [mem_nbrs] at hq
        rw [mem_gridL] at hp
        exact ⟨hqne, by omega, by omega, by omega, by omega, hqmine⟩
      omega

/-! ### Counting mines through `place_mines` -/

theorem countP_update_list {α : Type} [DecidableEq α] (g1 g2 : α → Bool) (p : α)
    (hold : g1 p = false) (hnew : g2 p = true) (hsame : ∀ q, q ≠ p → g2 q = g1 q) :
    ∀ l : List α, l.Nodup → p ∈ l → l.countP g2 = l.countP g1 + 1 := by
  intro l
  induction l with
  | nil => intro _ h; cases h
  | cons a rest ih =>
    intro hnd hmem
    have hnd2 := List.nodup_cons.1 hnd
    rw [List.countP_cons, List.countP_cons]
    by_cases hap : a = p
    · subst hap
      have heq : rest.countP g2 = rest.countP g1 := by
        apply countP_congr_list
        intro x hx
        exact hsame x (fun hc => hnd2.1 (hc ▸ hx))
      rw [heq, hold, hnew]
      simp
    · have hmem2 : p ∈ rest := by
        rcases List.mem_cons.1 hmem with h | h
        · exact absurd h.symm hap
        · exact h
      rw [hsame a hap, ih hnd2.2 hmem2]
      omega

theorem countMines_updateGrid_mine {COLS ROWS : ℤ} {b : Grid} {p : ℤ × ℤ}
    (hp : p ∈ gridL COLS ROWS) (hnot : (b p).type ≠ TileType.mine) {t : Tile}
    (ht : t.type = TileType.mine) :
    countMines COLS ROWS (updateGrid b p t) = countMines COLS ROWS b + 1 := by
  unfold countMines
  refine countP_update_list _ _ p ?_ ?_ ?_ _ (gridL_nodup COLS ROWS) hp
  · simpa using hnot
  · rw [updateGrid_same]
    simpa using ht
  · intro q hq
    rw [updateGrid_other _ _ _ hq]

theorem place_mine_pick_spec (COLS ROWS : ℤ) :
    ∀ (picks : List (ℤ × ℤ)) (b b2 : Grid) (rest : List (ℤ × ℤ)),
      (∀ q ∈ picks, q ∈ gridL COLS ROWS) →
      place_mine_pick b picks = some (b2, rest) →
      countMines COLS ROWS b2 = countMines COLS ROWS b + 1 ∧
        (∀ q ∈ rest, q ∈ gridL COLS ROWS) ∧
        ∃ p ∈ picks, (b p).type = TileType.dot ∧
          b2 = updateGrid b p { b p with image := TileImage.mineImg, type := TileType.mine } := by
  intro picks
  induction picks with
  | nil => intro b b2 rest _ h; cases h
  | cons p ps ih =>
    intro b b2 rest hgrid h
    unfold place_mine_pick at h
    split at h
    · rename_i hdot
      rw [Option.some_inj] at h
      have hb2 : updateGrid b p { b p with image := TileImage.mineImg, type := TileType.mine }
          = b2 := congrArg Prod.fst h
      have hrest : ps = rest := congrArg Prod.snd h
      refine ⟨?_, ?_, p, List.mem_cons_self _ _, hdot, hb2.symm⟩
      · rw [← hb2]
        exact countMines_updateGrid_mine (hgrid p (List.mem_cons_self _ _))
          (by rw [hdot]; intro hc; cases hc) rfl
      · intro q hq
        rw [← hrest] at hq
        exact hgrid q (List.mem_cons_of_mem _ hq)
    · obtain ⟨h1, h2, h3⟩ := ih b b2 rest (fun q hq => hgrid q (List.mem_cons_of_mem _ hq)) h
      obtain ⟨p2, hp2, hrest2⟩ := h3
      exact ⟨h1, h2, p2, List.mem_cons_of_mem _ hp2, hrest2⟩

theorem place_mines_count (COLS ROWS : ℤ) :
    ∀ (n : ℕ) (b : Grid) (picks : List (ℤ × ℤ)) (b2 : Grid),
      (∀ q ∈ picks, q ∈ gridL COLS ROWS) →
      place_mines b picks n = some b2 →
      countMines COLS ROWS b2 = countMines COLS ROWS b + n := by
  intro n
  induction n with
  | zero =>
    intro b picks b2 _ h
    rw [show place_mines b picks 0 = some b from rfl, Option.some_inj] at h
    rw [h]
    omega
  | succ n ih =>
    intro b picks b2 hgrid h
    rw [show place_mines b picks (n + 1) =
      (match place_mine_pick b picks with
       | none => none
       | some (bm, rest) => place_mines bm rest n) from rfl] at h
    cases hpick : place_mine_pick b picks with
    | none => rw [hpick] at h; cases h
    | some pr =>
      obtain ⟨bm, rest⟩ := pr
      rw [hpick] at h
      obtain ⟨hcount, hrest, _⟩ := place_mine_pick_spec COLS ROWS picks b bm rest hgrid hpick
      have := ih bm rest b2 hrest h
      omega

theorem countMines_place_clues (COLS ROWS : ℤ) (b : Grid) :
    countMines COLS ROWS (place_clues COLS ROWS b) = countMines COLS ROWS b := by
  unfold countMines
  apply countP_congr_list
  intro q _
  by_cases h : (b q).type = TileType.mine
  · simp [(place_clues_mine_iff COLS ROWS b q).2 h, h]
  · have h2 : ¬((place_clues COLS ROWS b) q).type = TileType.mine :=
      fun hc => h ((place_clues_mine_iff COLS ROWS b q).1 hc)
    simp [h, h2]

theorem countMines_initGrid (COLS ROWS : ℤ) : countMines COLS ROWS initGrid = 0 := by
  unfold countMines
  rw [List.countP_eq_zero]
  intro q _
  simp [initGrid, initTile]

/-! ### Helpers for the second-dig and sweep evaluations -/

theorem foldl_digStep_nop {COLS ROWS : ℤ} (f : ℕ) :
    ∀ (l : List (ℤ × ℤ)) (s : Board), (∀ q ∈ l, q ∈ s.dug) →
      l.foldl (digStep COLS ROWS f) s = s := by
  intro l
  induction l with
  | nil => intro s _; rfl
  | cons a rest ih =>
    intro s h
    rw [List.foldl_cons]
    have hstep : digStep COLS ROWS f s a = s := by
      unfold digStep
      rw [if_pos (h a (List.mem_cons_self _ _))]
    rw [hstep]
    exact ih s (fun q hq => h q (List.mem_cons_of_mem _ hq))

theorem tile_set_revealed_eq {t : Tile} (h : t.revealed = true) :
    ({ t with revealed := true } : Tile) = t := by
  cases t
  simp_all

theorem dig_self_revealed (COLS ROWS : ℤ) (s : Board) (p : ℤ × ℤ) :
    ((dig COLS ROWS s p).1.board_list p).revealed = true := by
  show ((digF COLS ROWS (numTiles COLS ROWS + 1) s p).1.board_list p).revealed = true
  cases htype : (s.board_list p).type
  · rw [digF_dot htype]
    refine (foldl_digStep_pres _ _ _ p).2.2 ?_
    show (revealAt s.board_list p p).revealed = true
    rw [revealAt_same]
  · rw [digF_mine htype]
    show (explodeAt s.board_list p p).revealed = true
    rw [explodeAt_same]
  · rw [digF_clue htype]
    show (revealAt s.board_list p p).revealed = true
    rw [revealAt_same]

theorem dig_covers_nbrs {COLS ROWS : ℤ} {s : Board} {p : ℤ × ℤ}
    (htype : (s.board_list p).type = TileType.dot) :
    ∀ q ∈ nbrs COLS ROWS p, q ∈ (dig COLS ROWS s p).1.dug := by
  intro q hq
  show q ∈ (digF COLS ROWS (numTiles COLS ROWS + 1) s p).1.dug
  rw [digF_dot htype]
  exact foldl_digStep_covers _ _ _ (fun a ha => nbrs_subset_gridL ha)
    (undug_le_numTiles COLS ROWS (digInit s p)) q hq

theorem winPhase_eval (COLS ROWS : ℤ) (g : Game) (hwin : check_win COLS ROWS g.st.board_list = true) :
    (winPhase COLS ROWS g).win = true ∧ (winPhase COLS ROWS g).playing = false ∧
      ∀ p, (winPhase COLS ROWS g).st.board_list p =
        if p ∈ gridL COLS ROWS then winTile p (g.st.board_list p) else g.st.board_list p := by
  unfold winPhase
  rw [if_pos hwin]
  exact ⟨rfl, rfl, fun p => foldl_tileStep_eq winTile _ (gridL_nodup COLS ROWS) _ p⟩

theorem lossSweep_eval (COLS ROWS : ℤ) (b : Grid) (click p : ℤ × ℤ) :
    lossSweep COLS ROWS b click p =
      if p ∈ gridL COLS ROWS then lossTile click p (b p) else b p :=
  foldl_tileStep_eq (lossTile click) _ (gridL_nodup COLS ROWS) b p

theorem reach_grid_or_eq {COLS ROWS : ℤ} {tm : (ℤ × ℤ) → TileType} {p q : ℤ × ℤ}
    (h : reach COLS ROWS tm p q) : q = p ∨ q ∈ gridL COLS ROWS := by
  induction h with
  | refl => exact Or.inl rfl
  | tail h1 h2 _ => exact Or.inr (nbrs_subset_gridL h2.2)

theorem place_mine_pick_exists :
    ∀ (picks : List (ℤ × ℤ)) (b b2 : Grid) (rest : List (ℤ × ℤ)),
      place_mine_pick b picks = some (b2, rest) →
      ∃ p ∈ picks, (b p).type = TileType.dot ∧
        b2 = updateGrid b p { b p with image := TileImage.mineImg, type := TileType.mine } := by
  intro picks
  induction picks with
  | nil => intro b b2 rest h; cases h
  | cons p ps ih =>
    intro b b2 rest h
    unfold place_mine_pick at h
    split at h
    · rename_i hdot
      rw [Option.some_inj] at h
      have hb2 : updateGrid b p { b p with image := TileImage.mineImg, type := TileType.mine }
          = b2 := congrArg Prod.fst h
      exact ⟨p, List.mem_cons_self _ _, hdot, hb2.symm⟩
    · obtain ⟨p2, hp2, hrest⟩ := ih b b2 rest h
      exact ⟨p2, List.mem_cons_of_mem _ hp2, hrest⟩

theorem tile_set_flagged_eq {t : Tile} (h : t.flagged = true) :
    ({ t with flagged := true } : Tile) = t := by
  cases t
  simp_all

theorem winTile_flagged {q : ℤ × ℤ} {t : Tile} (h : t.flagged = true) : winTile q t = t := by
  unfold winTile
  split
  · exact tile_set_flagged_eq h
  · rfl

theorem winTile_revealed (q : ℤ × ℤ) (t : Tile) : (winTile q t).revealed = t.revealed := by
  unfold winTile
  split
  · rfl
  · rfl

theorem winPhase_board_revealed (COLS ROWS : ℤ) (g : Game) (p : ℤ × ℤ) :
    ((winPhase COLS ROWS g).st.board_list p).revealed = (g.st.board_list p).revealed := by
  unfold winPhase
  split
  · show ((((gridL COLS ROWS).foldl (tileStep winTile) g.st.board_list)) p).revealed = _
    rw [foldl_tileStep_eq winTile _ (gridL_nodup COLS ROWS)]
    split
    · exact winTile_revealed _ _
    · rfl
  · rfl

theorem winPhase_board_flagged_tile (COLS ROWS : ℤ) (g : Game) (p : ℤ × ℤ)
    (h : (g.st.board_list p).flagged = true) :
    (winPhase COLS ROWS g).st.board_list p = g.st.board_list p := by
  unfold winPhase
  split
  · show (((gridL COLS ROWS).foldl (tileStep winTile) g.st.board_list)) p = _
    rw [foldl_tileStep_eq winTile _ (gridL_nodup COLS ROWS)]
    split
    · exact winTile_flagged h
    · rfl
  · rfl

theorem winPhase_playing_false (COLS ROWS : ℤ) (g : Game) (h : g.playing = false) :
    (winPhase COLS ROWS g).playing = false := by
  unfold winPhase
  split
  · rfl
  · exact h

theorem winPhase_dug (COLS ROWS : ℤ) (g : Game) :
    (winPhase COLS ROWS g).st.dug = g.st.dug := by
  unfold winPhase
  split
  · rfl
  · rfl

theorem lossTile_flagged_mine {click q : ℤ × ℤ} {t : Tile}
    (ht : t.type = TileType.mine) (hf : t.flagged = true) : lossTile click q t = t := by
  unfold lossTile
  rw [if_pos ht, if_pos hf]

theorem lossTile_unflagged_mine_click {click : ℤ × ℤ} {t : Tile}
    (ht : t.type = TileType.mine) (hf : t.flagged = false) :
    lossTile click click t =
      { t with revealed := true, flagged := false, image := TileImage.exploded } := by
  unfold lossTile
  rw [if_pos ht, if_neg (by rw [hf]; exact Bool.false_ne_true), if_pos rfl]

theorem lossTile_unflagged_mine_other {click q : ℤ × ℤ} {t : Tile}
    (ht : t.type = TileType.mine) (hf : t.flagged = false) (hq : q ≠ click) :
    lossTile click q t =
      { t with revealed := true, flagged := false, image := TileImage.mineImg } := by
  unfold lossTile
  rw [if_pos ht, if_neg (by rw [hf]; exact Bool.false_ne_true), if_neg hq]

/-- When the clicked tile is an unflagged mine, the click takes the loss
branch: dig explodes the clicked tile, the loss sweep runs, and the round
stops. -/
theorem leftClick_mine_eval (COLS ROWS : ℤ) (g : Game) (click : ℤ × ℤ)
    (hmine : (g.st.board_list click).type = TileType.mine)
    (hnoflag : (g.st.board_list click).flagged = false) :
    leftClick COLS ROWS g click =
      { st := { board_list := lossSweep COLS ROWS (explodeAt g.st.board_list click) click,
                dug := g.st.dug ++ [click] },
        playing := false, win := g.win } := by
  unfold leftClick
  have hr : dig COLS ROWS g.st click =
      ({ board_list := explodeAt g.st.board_list click, dug := g.st.dug ++ [click] }, false) :=
    digF_mine hmine
  rw [if_neg (by rw [hnoflag]; exact Bool.false_ne_true), hr]
  rfl

/-! ## The claims -/

/-- Claim C2: after board construction, every non-mine in-bounds tile with
`n >= 1` mines among its real (in-bounds) 8 neighbours has kind Clue with
value exactly `n` (carried by the digit image), and a non-mine tile with
zero mine neighbours is left untouched, keeping kind Empty; cells outside
the grid contribute nothing to the count and cause no error. -/
theorem C2_place_clues_correct (COLS ROWS : ℤ) (b : Grid) (p : ℤ × ℤ)
    (hp : p ∈ gridL COLS ROWS) (hmine : (b p).type ≠ TileType.mine) :
    (0 < mineNeighbourCount COLS ROWS b p →
      ((place_clues COLS ROWS b) p).type = TileType.clue ∧
      ((place_clues COLS ROWS b) p).image =
        TileImage.number (mineNeighbourCount COLS ROWS b p)) ∧
    (mineNeighbourCount COLS ROWS b p = 0 → (place_clues COLS ROWS b) p = b p) := by
  have hcnt := check_neighbours_eq_spec COLS ROWS b p hmine
  rw [place_clues_eval, if_pos hp]
  unfold clueWrite
  rw [if_pos (by simpa using hmine), hcnt]
  constructor
  · intro hpos
    rw [if_pos hpos]
    exact ⟨rfl, rfl⟩
  · intro hzero
    rw [if_neg (by omega)]

/-- Claim C3: whenever mine placement terminates successfully on the fresh
all-empty grid (the stream of random picks is modelled explicitly, and
`random.randint` only produces in-bounds picks), exactly `n` tiles end up
with kind Mine — each single placement happens on a tile that was still
Empty-pending, so no tile is assigned a mine twice. -/
theorem C3_place_mines_count (COLS ROWS : ℤ) (picks : List (ℤ × ℤ)) (n : ℕ) (b2 : Grid)
    (hgrid : ∀ q ∈ picks, q ∈ gridL COLS ROWS)
    (h : place_mines initGrid picks n = some b2) :
    countMines COLS ROWS b2 = n ∧
      (∀ (c c2 : Grid) (ps rest : List (ℤ × ℤ)),
        place_mine_pick c ps = some (c2, rest) →
        ∃ p ∈ ps, (c p).type = TileType.dot ∧
          c2 = updateGrid c p { c p with image := TileImage.mineImg,
                                         type := TileType.mine }) := by
  constructor
  · have := place_mines_count COLS ROWS n initGrid picks b2 hgrid h
    rw [countMines_initGrid] at this
    omega
  · exact fun c c2 ps rest hpick => place_mine_pick_exists ps c c2 rest hpick

/-- Claim C4: `check_win` returns `true` exactly when every in-bounds
non-mine tile is revealed, and when it holds after a click the controller
marks the round as won, stops playing, and flags every still-unrevealed
tile. -/
theorem C4_win_condition (COLS ROWS : ℤ) (b : Grid) (g : Game) :
    (check_win COLS ROWS b = true ↔
      ∀ p ∈ gridL COLS ROWS, (b p).type ≠ TileType.mine → (b p).revealed = true) ∧
    (check_win COLS ROWS g.st.board_list = true →
      (winPhase COLS ROWS g).win = true ∧ (winPhase COLS ROWS g).playing = false ∧
      ∀ p ∈ gridL COLS ROWS, (g.st.board_list p).revealed = false →
        ((winPhase COLS ROWS g).st.board_list p).flagged = true) := by
  constructor
  · exact check_win_iff COLS ROWS b
  · intro hwin
    obtain ⟨h1, h2, h3⟩ := winPhase_eval COLS ROWS g hwin
    refine ⟨h1, h2, ?_⟩
    intro p hp hrev
    rw [h3 p, if_pos hp]
    unfold winTile
    rw [hrev]
    rfl

/-- Claim C8: the neighbours enumerated by the flood-fill loops of
`Board.dig` are exactly the per-axis clamped box
`max(0,x-1)..min(COLS-1,x+1)` times `max(0,y-1)..min(ROWS-1,y+1)` — the
column bound clips the x axis and the row bound the y axis — so for an
in-bounds origin every enumerated neighbour, and hence every coordinate a
reveal ever adds to the dug list, stays inside the grid. -/
theorem C8_neighbour_bounds (COLS ROWS : ℤ) (p : ℤ × ℤ) :
    (∀ q : ℤ × ℤ, q ∈ nbrs COLS ROWS p ↔
      (max 0 (p.1 - 1) ≤ q.1 ∧ q.1 ≤ min (COLS - 1) (p.1 + 1) ∧
        max 0 (p.2 - 1) ≤ q.2 ∧ q.2 ≤ min (ROWS - 1) (p.2 + 1))) ∧
    (p ∈ gridL COLS ROWS → ∀ q ∈ nbrs COLS ROWS p, q ∈ gridL COLS ROWS) ∧
    (p ∈ gridL COLS ROWS → ∀ (s : Board) (q : ℤ × ℤ),
      q ∈ (dig COLS ROWS s p).1.dug → q ∈ s.dug ∨ q ∈ gridL COLS ROWS) := by
  refine ⟨fun q => mem_nbrs, fun _ q hq => nbrs_subset_gridL hq, ?_⟩
  intro hp s q hq
  rcases digF_dug_sound COLS ROWS _ s p q hq with h1 | h1
  · exact Or.inl h1
  · rcases reach_grid_or_eq h1 with h2 | h2
    · exact Or.inr (h2 ▸ hp)
    · exact Or.inr h2

/-- Claim C9: the flood-fill terminates with recursion depth bounded by
the number of tiles: for an in-bounds origin, every fuel of at least
`COLS * ROWS` (the grid size) produces the same result as the canonical
`dig`, because each nested call enters a coordinate not yet in the dug
list and records it on entry. -/
theorem C9_dig_depth_bound (COLS ROWS : ℤ) (s : Board) (p : ℤ × ℤ) (f : ℕ)
    (hp : p ∈ gridL COLS ROWS) (hf : numTiles COLS ROWS ≤ f) :
    digF COLS ROWS f s p = dig COLS ROWS s p := by
  have hlt : undug COLS ROWS (pushDug s p) < numTiles COLS ROWS := by
    have hmem : p ∈ (pushDug s p).dug := List.mem_append_right _ (List.mem_singleton.2 rfl)
    unfold undug numTiles
    have : p ∈ gridL COLS ROWS ∧
        ¬(fun q => decide (q ∉ (pushDug s p).dug)) p = true := by
      constructor
      · exact hp
      · simp [hmem]
    calc ((gridL COLS ROWS).filter (fun q => decide (q ∉ (pushDug s p).dug))).length
        < (gridL COLS ROWS).length := by
          rw [List.length_filter_lt_length_iff_exists]
          exact ⟨p, hp, by simp [hmem]⟩
      _ = (gridL COLS ROWS).length := rfl
  exact digF_fuel_indep COLS ROWS f (numTiles COLS ROWS + 1) s p (by omega) (by omega)

/-- Claim C1: on a generated (well-formed) board, with the dug list in its
reachable-state invariant, digging a Mine or Clue tile reveals only that
tile and touches no other tile at all; digging an Empty tile leaves
revealed, afterwards, exactly the previously revealed tiles plus the
connected region of Empty tiles containing the origin plus the Clue tiles
bordering that region — the revealed flag of every tile outside changes
nowhere, and no kind or flag changes anywhere. -/
theorem C1_dig_cascade (COLS ROWS : ℤ) (s : Board) (p : ℤ × ℤ)
    (hp : p ∈ gridL COLS ROWS) (hwf : wfGrid COLS ROWS s.board_list)
    (hinv : DugInv COLS ROWS s) :
    (((s.board_list p).type = TileType.mine ∨ (s.board_list p).type = TileType.clue) →
      ((dig COLS ROWS s p).1.board_list p).revealed = true ∧
      ∀ q, q ≠ p → (dig COLS ROWS s p).1.board_list q = s.board_list q) ∧
    ((s.board_list p).type = TileType.dot →
      ∀ q, (((dig COLS ROWS s p).1.board_list q).revealed = true ↔
          ((s.board_list q).revealed = true ∨ Region COLS ROWS s.board_list p q ∨
            Border COLS ROWS s.board_list p q)) ∧
        ((dig COLS ROWS s p).1.board_list q).type = (s.board_list q).type ∧
        ((dig COLS ROWS s p).1.board_list q).flagged = (s.board_list q).flagged) := by
  constructor
  · rintro (htype | htype)
    · refine ⟨dig_self_revealed COLS ROWS s p, ?_⟩
      intro q hqp
      show (digF COLS ROWS (numTiles COLS ROWS + 1) s p).1.board_list q = s.board_list q
      rw [digF_mine htype]
      exact explodeAt_other _ _ hqp
    · refine ⟨dig_self_revealed COLS ROWS s p, ?_⟩
      intro q hqp
      show (digF COLS ROWS (numTiles COLS ROWS + 1) s p).1.board_list q = s.board_list q
      rw [digF_clue htype]
      exact revealAt_other _ _ hqp
  · intro htype q
    refine ⟨?_, (digF_pres COLS ROWS _ s p q).1, (digF_pres COLS ROWS _ s p q).2.1⟩
    constructor
    · intro hrev
      rcases digF_revealed_mem_dug COLS ROWS _ s p q hrev with h1 | h1
      · exact Or.inl h1
      · rcases digF_dug_sound COLS ROWS _ s p q h1 with h2 | h2
        · exact Or.inl (hinv.1 q h2)
        · exact Or.inr (reach_classify hwf hp htype h2).2
    · rintro (hrev | hreg | hbord)
      · exact (digF_pres COLS ROWS _ s p q).2.2 hrev
      · exact digF_dug_revealed COLS ROWS _ s p hinv.1 q (dig_reach_mem_dug hinv q hreg.2)
      · obtain ⟨hclue, r, hregr, hnbr⟩ := hbord
        have hrdug : r ∈ (dig COLS ROWS s p).1.dug := dig_reach_mem_dug hinv r hregr.2
        have hqdug : q ∈ (dig COLS ROWS s p).1.dug :=
          dig_dug_closure hinv r hrdug hregr.1 q hnbr
        exact digF_dug_revealed COLS ROWS _ s p hinv.1 q hqdug

/-- Claim C10: `dig` is idempotent at the public interface: an immediate
second dig of the same in-bounds coordinate returns the same boolean and
leaves every tile exactly as the first call left it. -/
theorem C10_dig_idempotent (COLS ROWS : ℤ) (s : Board) (p : ℤ × ℤ)
    (_hp : p ∈ gridL COLS ROWS) :
    (∀ q, (dig COLS ROWS (dig COLS ROWS s p).1 p).1.board_list q =
      (dig COLS ROWS s p).1.board_list q) ∧
    (dig COLS ROWS (dig COLS ROWS s p).1 p).2 = (dig COLS ROWS s p).2 := by
  have htype1 : ((dig COLS ROWS s p).1.board_list p).type = (s.board_list p).type :=
    (digF_pres COLS ROWS _ s p p).1
  cases htype : (s.board_list p).type
  · -- Empty origin: the whole 3x3 box is already dug, so the second loop
    -- is a no-op and the only write re-reveals the already revealed origin.
    have ht1 : ((dig COLS ROWS s p).1.board_list p).type = TileType.dot := by
      rw [htype1, htype]
    constructor
    · intro q
      show (digF COLS ROWS (numTiles COLS ROWS + 1) (dig COLS ROWS s p).1 p).1.board_list q
        = (dig COLS ROWS s p).1.board_list q
      rw [digF_dot ht1]
      rw [foldl_digStep_nop _ _ _ (fun r hr =>
        List.mem_append_left _ (dig_covers_nbrs htype r hr))]
      show revealAt (dig COLS ROWS s p).1.board_list p q = (dig COLS ROWS s p).1.board_list q
      by_cases hqp : q = p
      · rw [hqp, revealAt_same]
        exact tile_set_revealed_eq (dig_self_revealed COLS ROWS s p)
      · exact revealAt_other _ _ hqp
    · show (digF COLS ROWS (numTiles COLS ROWS + 1) (dig COLS ROWS s p).1 p).2
        = (digF COLS ROWS (numTiles COLS ROWS + 1) s p).2
      rw [digF_snd, digF_snd, htype1]
  · -- Mine origin: the first call already revealed and exploded it.
    have h1 : (dig COLS ROWS s p).1 =
        { board_list := explodeAt s.board_list p, dug := s.dug ++ [p] } :=
      congrArg Prod.fst (digF_mine htype)
    have ht1 : ((dig COLS ROWS s p).1.board_list p).type = TileType.mine := by
      rw [htype1, htype]
    have himg : ((dig COLS ROWS s p).1.board_list p).image = TileImage.exploded := by
      rw [h1]
      show (explodeAt s.board_list p p).image = TileImage.exploded
      rw [explodeAt_same]
    constructor
    · intro q
      show (digF COLS ROWS (numTiles COLS ROWS + 1) (dig COLS ROWS s p).1 p).1.board_list q
        = (dig COLS ROWS s p).1.board_list q
      rw [digF_mine ht1]
      show explodeAt (dig COLS ROWS s p).1.board_list p q
        = (dig COLS ROWS s p).1.board_list q
      by_cases hqp : q = p
      · rw [hqp, explodeAt_same]
        have hrev := dig_self_revealed COLS ROWS s p
        generalize hgen : (dig COLS ROWS s p).1.board_list p = t at hrev himg
        cases t
        simp_all
      · exact explodeAt_other _ _ hqp
    · show (digF COLS ROWS (numTiles COLS ROWS + 1) (dig COLS ROWS s p).1 p).2
        = (digF COLS ROWS (numTiles COLS ROWS + 1) s p).2
      rw [digF_snd, digF_snd, htype1]
  · -- Clue origin: the first call already revealed it.
    have ht1 : ((dig COLS ROWS s p).1.board_list p).type = TileType.clue := by
      rw [htype1, htype]
    constructor
    · intro q
      show (digF COLS ROWS (numTiles COLS ROWS + 1) (dig COLS ROWS s p).1 p).1.board_list q
        = (dig COLS ROWS s p).1.board_list q
      rw [digF_clue ht1]
      show revealAt (dig COLS ROWS s p).1.board_list p q = (dig COLS ROWS s p).1.board_list q
      by_cases hqp : q = p
      · rw [hqp, revealAt_same]
        exact tile_set_revealed_eq (dig_self_revealed COLS ROWS s p)
      · exact revealAt_other _ _ hqp
    · show (digF COLS ROWS (numTiles COLS ROWS + 1) (dig COLS ROWS s p).1 p).2
        = (digF COLS ROWS (numTiles COLS ROWS + 1) s p).2
      rw [digF_snd, digF_snd, htype1]

/-- Claim C5, amended: after a reveal that hits an (unflagged) mine and
the loss handling completes, every unflagged mine tile is revealed, the
round stops, but a mine that was flagged before the loss is left exactly
as it was — still flagged and NOT revealed (the sweep skips flagged
mines). -/
theorem C5_loss_reveals_unflagged_mines (COLS ROWS : ℤ) (g : Game) (click : ℤ × ℤ)
    (hclick : click ∈ gridL COLS ROWS)
    (hmine : (g.st.board_list click).type = TileType.mine)
    (hnoflag : (g.st.board_list click).flagged = false) :
    (processLeftClick COLS ROWS g click).playing = false ∧
    ∀ p ∈ gridL COLS ROWS, (g.st.board_list p).type = TileType.mine →
      ((g.st.board_list p).flagged = false →
        ((processLeftClick COLS ROWS g click).st.board_list p).revealed = true) ∧
      ((g.st.board_list p).flagged = true →
        (processLeftClick COLS ROWS g click).st.board_list p = g.st.board_list p) := by
  have hleft := leftClick_mine_eval COLS ROWS g click hmine hnoflag
  constructor
  · show (winPhase COLS ROWS (leftClick COLS ROWS g click)).playing = false
    exact winPhase_playing_false COLS ROWS _ (by rw [hleft])
  · intro p hpgrid hpmine
    have hsweep : (leftClick COLS ROWS g click).st.board_list p =
        lossTile click p (explodeAt g.st.board_list click p) := by
      rw [hleft]
      show lossSweep COLS ROWS (explodeAt g.st.board_list click) click p = _
      rw [lossSweep_eval, if_pos hpgrid]
    constructor
    · intro hpf
      show ((winPhase COLS ROWS (leftClick COLS ROWS g click)).st.board_list p).revealed = true
      rw [winPhase_board_revealed, hsweep]
      by_cases hpc : p = click
      · subst hpc
        rw [explodeAt_same]
        rw [lossTile_unflagged_mine_click (by simpa using hpmine) (by simpa using hpf)]
      · rw [explodeAt_other _ _ hpc, lossTile_unflagged_mine_other hpmine hpf hpc]
    · intro hpf
      have hpc : p ≠ click := by
        intro hc
        rw [hc, hnoflag] at hpf
        cases hpf
      have hunchanged : (leftClick COLS ROWS g click).st.board_list p = g.st.board_list p := by
        rw [hsweep, explodeAt_other _ _ hpc, lossTile_flagged_mine hpmine hpf]
      show (winPhase COLS ROWS (leftClick COLS ROWS g click)).st.board_list p = g.st.board_list p
      rw [winPhase_board_flagged_tile COLS ROWS _ p (by rw [hunchanged]; exact hpf), hunchanged]

/-! ### Concrete boards used to exhibit behaviours -/

/-- A mine tile, optionally flagged. -/
def mineT (fl : Bool) : Tile :=
  { type := TileType.mine, image := TileImage.mineImg, revealed := false, flagged := fl }

/-- An unrevealed clue tile showing digit `n`. -/
def clueT (n : ℕ) : Tile :=
  { type := TileType.clue, image := TileImage.number n, revealed := false, flagged := false }

/-- 2x2 board: flagged mine at (0,0), unflagged mine at (1,0), clue tiles
below — the post-generation state of a board with two mines in the top
row. -/
def g5board : Grid := fun q =>
  if q = (0, 0) then mineT true
  else if q = (1, 0) then mineT false
  else if q = (0, 1) then clueT 2
  else if q = (1, 1) then clueT 2
  else initTile

def g5 : Game := { st := { board_list := g5board, dug := [] }, playing := true, win := false }

/-- 2x1 board of two empty tiles, the right one flagged by the player. -/
def g6board : Grid := fun q =>
  if q = (1, 0) then { type := TileType.dot, image := TileImage.empty,
                       revealed := false, flagged := true }
  else initTile

def g6 : Game := { st := { board_list := g6board, dug := [] }, playing := true, win := false }

/-- Claim C5, counterexample to the original statement: on the 2x2 board
`g5board`, clicking the unflagged mine at (1,0) triggers the loss
handling, yet the flagged mine at (0,0) is still NOT revealed afterwards —
so it is false that every mine is revealed regardless of prior flag
state. -/
theorem C5_counterexample :
    (g5board (0, 0)).type = TileType.mine ∧ (g5board (0, 0)).flagged = true ∧
    (g5board (1, 0)).type = TileType.mine ∧ (g5board (1, 0)).flagged = false ∧
    (dig 2 2 g5.st (1, 0)).2 = false ∧
    ((processLeftClick 2 2 g5 (1, 0)).st.board_list (0, 0)).revealed = false := by
  decide

/-- Claim C6: the code violates the never-revealed-and-flagged invariant:
on the 2x1 all-empty board with (1,0) flagged, a left click at (0,0)
flood-fills into (1,0) and reveals it without clearing its flag, leaving
`revealed = true` and `flagged = true` at once (a state `Tile.draw` cannot
render: none of its three branches matches). -/
theorem C6_flood_fill_reveals_flagged_tile :
    (g6board (1, 0)).type = TileType.dot ∧ (g6board (1, 0)).flagged = true ∧
    ((processLeftClick 2 1 g6 (0, 0)).st.board_list (1, 0)).revealed = true ∧
    ((processLeftClick 2 1 g6 (0, 0)).st.board_list (1, 0)).flagged = true := by
  decide

/-- Claim C7, counterexample to the original statement: the dug list is
NOT re-established empty per top-level reveal: after one left click on the
fresh 2x1 board it holds the two cascaded coordinates, and nothing ever
clears it, so the next top-level `dig` of the round begins with this
non-empty visited list. -/
theorem C7_counterexample :
    g6.st.dug = [] ∧
    (processLeftClick 2 1 g6 (0, 0)).st.dug = [(0, 0), (1, 0)] ∧
    (processLeftClick 2 1 g6 (0, 0)).st.dug ≠ [] := by
  decide

/-- Claim C7, amended: the visited (dug) list is created empty once, at
board construction, and persists for the lifetime of the board: a
processed click only ever appends to it and no operation clears it. -/
theorem C7_dug_initialized_once_and_persists (COLS ROWS : ℤ) (picks : List (ℤ × ℤ))
    (n : ℕ) (gs : Board) (hmk : mkBoard COLS ROWS picks n = some gs)
    (g : Game) (p : ℤ × ℤ) :
    gs.dug = [] ∧ g.st.dug ⊆ (processLeftClick COLS ROWS g p).st.dug := by
  constructor
  · unfold mkBoard at hmk
    cases hpm : place_mines initGrid picks n with
    | none => rw [hpm] at hmk; cases hmk
    | some b2 =>
      rw [hpm] at hmk
      have : ({ board_list := place_clues COLS ROWS b2, dug := [] } : Board) = gs :=
        Option.some_inj.1 hmk
      rw [← this]
  · show g.st.dug ⊆ (winPhase COLS ROWS (leftClick COLS ROWS g p)).st.dug
    rw [winPhase_dug]
    simp only [leftClick]
    split
    · exact fun a ha => ha
    · split
      · exact digF_dug_subset COLS ROWS _ g.st p
      · exact digF_dug_subset COLS ROWS _ g.st p

/-! ### Witnesses: the claim theorems applied at concrete inputs -/

/-- 3x1 generated board: mine, clue 1, empty. -/
def w1board : Grid := fun q =>
  if q = (0, 0) then mineT false
  else if q = (1, 0) then clueT 1
  else initTile

def w1state : Board := { board_list := w1board, dug := [] }

theorem C1_dig_cascade_witness :
    ((2, 0) ∈ gridL 3 1) ∧ wfGrid 3 1 w1board ∧ DugInv 3 1 w1state ∧
    ((((w1state.board_list (2, 0)).type = TileType.mine ∨
        (w1state.board_list (2, 0)).type = TileType.clue) →
      ((dig 3 1 w1state (2, 0)).1.board_list (2, 0)).revealed = true ∧
      ∀ q, q ≠ (2, 0) → (dig 3 1 w1state (2, 0)).1.board_list q = w1state.board_list q) ∧
     ((w1state.board_list (2, 0)).type = TileType.dot →
      ∀ q, (((dig 3 1 w1state (2, 0)).1.board_list q).revealed = true ↔
          ((w1state.board_list q).revealed = true ∨
            Region 3 1 w1state.board_list (2, 0) q ∨
            Border 3 1 w1state.board_list (2, 0) q)) ∧
        ((dig 3 1 w1state (2, 0)).1.board_list q).type = (w1state.board_list q).type ∧
        ((dig 3 1 w1state (2, 0)).1.board_list q).flagged = (w1state.board_list q).flagged)) :=
  ⟨by decide, by decide, by decide,
    C1_dig_cascade 3 1 w1state (2, 0) (by decide) (by decide) (by decide)⟩

/-- 3x1 pre-clue board: a mine at (0,0), the rest still Empty-pending. -/
def w2board : Grid := fun q => if q = (0, 0) then mineT false else initTile

theorem C2_place_clues_correct_witness :
    ((1, 0) ∈ gridL 3 1) ∧ ((w2board (1, 0)).type ≠ TileType.mine) ∧
    ((0 < mineNeighbourCount 3 1 w2board (1, 0) →
      ((place_clues 3 1 w2board) (1, 0)).type = TileType.clue ∧
      ((place_clues 3 1 w2board) (1, 0)).image =
        TileImage.number (mineNeighbourCount 3 1 w2board (1, 0))) ∧
     (mineNeighbourCount 3 1 w2board (1, 0) = 0 →
      (place_clues 3 1 w2board) (1, 0) = w2board (1, 0))) :=
  ⟨by decide, by decide, C2_place_clues_correct 3 1 w2board (1, 0) (by decide) (by decide)⟩

def w3picks : List (ℤ × ℤ) := [(0, 0), (1, 0)]

def w3grid : Grid := (place_mines initGrid w3picks 2).getD initGrid

theorem C3_place_mines_count_witness :
    (∀ q ∈ w3picks, q ∈ gridL 2 1) ∧
    (place_mines initGrid w3picks 2 = some w3grid) ∧
    (countMines 2 1 w3grid = 2 ∧
      (∀ (c c2 : Grid) (ps rest : List (ℤ × ℤ)),
        place_mine_pick c ps = some (c2, rest) →
        ∃ p ∈ ps, (c p).type = TileType.dot ∧
          c2 = updateGrid c p { c p with image := TileImage.mineImg,
                                         type := TileType.mine })) :=
  ⟨by decide, rfl, C3_place_mines_count 2 1 w3picks 2 w3grid (by decide) rfl⟩

/-- 2x1 board in a winning position: the only non-mine tile is revealed. -/
def w4board : Grid := fun q =>
  if q = (0, 0) then mineT false else { clueT 1 with revealed := true }

def w4g : Game := { st := { board_list := w4board, dug := [(1, 0)] }, playing := true, win := false }

theorem C4_win_condition_witness :
    check_win 2 1 w4board = true ∧
    ((winPhase 2 1 w4g).win = true ∧ (winPhase 2 1 w4g).playing = false ∧
      ∀ p ∈ gridL 2 1, (w4g.st.board_list p).revealed = false →
        ((winPhase 2 1 w4g).st.board_list p).flagged = true) :=
  ⟨by decide, (C4_win_condition 2 1 w4board w4g).2 (by decide)⟩

theorem C5_loss_reveals_unflagged_mines_witness :
    ((1, 0) ∈ gridL 2 2) ∧ ((g5.st.board_list (1, 0)).type = TileType.mine) ∧
    ((g5.st.board_list (1, 0)).flagged = false) ∧
    ((processLeftClick 2 2 g5 (1, 0)).playing = false ∧
      ∀ p ∈ gridL 2 2, (g5.st.board_list p).type = TileType.mine →
        ((g5.st.board_list p).flagged = false →
          ((processLeftClick 2 2 g5 (1, 0)).st.board_list p).revealed = true) ∧
        ((g5.st.board_list p).flagged = true →
          (processLeftClick 2 2 g5 (1, 0)).st.board_list p = g5.st.board_list p)) :=
  ⟨by decide, by decide, by decide,
    C5_loss_reveals_unflagged_mines 2 2 g5 (1, 0) (by decide) (by decide) (by decide)⟩

def w7picks : List (ℤ × ℤ) := [(0, 0)]

def w7state : Board := (mkBoard 2 1 w7picks 1).getD { board_list := initGrid, dug := [] }

theorem C7_dug_initialized_once_and_persists_witness :
    (mkBoard 2 1 w7picks 1 = some w7state) ∧
    (w7state.dug = [] ∧ g6.st.dug ⊆ (processLeftClick 2 1 g6 (0, 0)).st.dug) :=
  ⟨rfl, C7_dug_initialized_once_and_persists 2 1 w7picks 1 w7state rfl g6 (0, 0)⟩

theorem C8_neighbour_bounds_witness :
    ((0, 0) ∈ gridL 2 2) ∧ (∀ q ∈ nbrs 2 2 (0, 0), q ∈ gridL 2 2) :=
  ⟨by decide, (C8_neighbour_bounds 2 2 (0, 0)).2.1 (by decide)⟩

theorem C9_dig_depth_bound_witness :
    (numTiles 2 1 ≤ 5) ∧ ((0, 0) ∈ gridL 2 1) ∧
    digF 2 1 5 g6.st (0, 0) = dig 2 1 g6.st (0, 0) :=
  ⟨by decide, by decide, C9_dig_depth_bound 2 1 g6.st (0, 0) 5 (by decide) (by decide)⟩

theorem C10_dig_idempotent_witness :
    ((0, 0) ∈ gridL 2 1) ∧
    ((∀ q, (dig 2 1 (dig 2 1 g6.st (0, 0)).1 (0, 0)).1.board_list q =
        (dig 2 1 g6.st (0, 0)).1.board_list q) ∧
      (dig 2 1 (dig 2 1 g6.st (0, 0)).1 (0, 0)).2 = (dig 2 1 g6.st (0, 0)).2) :=
  ⟨by decide, C10_dig_idempotent 2 1 g6.st (0, 0) (by decide)⟩

end Minesweeper
